import Mathlib

/-!
Verification of the doubly-linked deque of `src/doubly_linked_deque.rs`
(`List<T>` over `Rc<RefCell<Node<T>>>`).

The Rust structure is shallowly embedded by making the `Rc`/`RefCell` heap
explicit: every `Rc<RefCell<Node<T>>>` allocation lives at an address in a
heap, and a heap cell records the node payload (`elem`, `next`, `prev` as
optional addresses), the `Rc` strong count, and the `RefCell` borrow flag.
Each operation of the Rust source is translated statement by statement:
`Rc::clone` increments a strong count, dropping a link decrements the
target's strong count, `borrow`/`borrow_mut` are runtime checks on the
borrow flag, and `Rc::try_unwrap(..).ok().unwrap()` succeeds exactly when
the strong count is 1.  A Rust panic (failed `borrow_mut`, failed
`unwrap`) is modelled by the `Res.fatal` constructor, which carries the
state at the moment of the panic.  Accessing a dangling address (which the
Rust type system makes unrepresentable) is also modelled as `Res.fatal`;
no verified execution reaches it.
-/

/-- Heap addresses of `Rc` allocations. -/
abbrev Addr := Nat

/-- The runtime borrow flag of a `RefCell`: unborrowed, `n + 1` outstanding
shared `Ref`s, or one outstanding exclusive `RefMut`. -/
inductive Borrow where
  | free : Borrow
  | reading : Nat → Borrow
  | writing : Borrow
deriving DecidableEq, Repr

/-- The `Node<T>` struct of the source: one element plus the two optional
neighbor links (`Link<T> = Option<Rc<RefCell<Node<T>>>>`, links are
addresses here). -/
structure Node (α : Type) where
  elem : α
  next : Option Addr
  prev : Option Addr
deriving DecidableEq, Repr

/-- One `Rc<RefCell<Node<T>>>` allocation: the node, its `Rc` strong count
and its `RefCell` borrow flag. -/
structure Cell (α : Type) where
  node : Node α
  strong : Nat
  borrow : Borrow
deriving DecidableEq, Repr

/-- The heap of `Rc` allocations: contents by address, plus the next fresh
address. -/
structure Heap (α : Type) where
  cells : Addr → Option (Cell α)
  fresh : Addr

/-- The `List<T>` struct of the source (named `DLList` here because `List`
is taken): the two anchors `head` and `tail` plus the explicit heap. -/
structure DLList (α : Type) where
  heap : Heap α
  head : Option Addr
  tail : Option Addr

/-- Result of running an operation: normal return carrying the value and
the next state, or a Rust panic carrying the state at the moment of the
panic. -/
inductive Res (σ : Type) (A : Type) where
  | ok : A → σ → Res σ A
  | fatal : σ → Res σ A
deriving DecidableEq

/-- Models `List::new()`. -/
def DLList.new : DLList α :=
  { heap := { cells := fun _ => none, fresh := 0 }, head := none, tail := none }

/-- Dereference an address. -/
def DLList.read (s : DLList α) (a : Addr) : Option (Cell α) :=
  s.heap.cells a

/-- Overwrite the cell at an address. -/
def DLList.write (s : DLList α) (a : Addr) (c : Cell α) : DLList α :=
  { s with heap := { s.heap with cells := fun x => if x = a then some c else s.heap.cells x } }

/-- Free the allocation at an address (its last `Rc` dropped / moved out by
`Rc::try_unwrap`). -/
def DLList.removeCell (s : DLList α) (a : Addr) : DLList α :=
  { s with heap := { s.heap with cells := fun x => if x = a then none else s.heap.cells x } }

/-- Models `Rc::clone`: one more strong reference to the allocation at `a`. -/
def DLList.incStrong (s : DLList α) (a : Addr) : DLList α :=
  match s.read a with
  | none => s
  | some c => s.write a { c with strong := c.strong + 1 }

/-- Dropping one `Rc` handle to the allocation at `a`. -/
def DLList.decStrong (s : DLList α) (a : Addr) : DLList α :=
  match s.read a with
  | none => s
  | some c => s.write a { c with strong := c.strong - 1 }

/-- Dropping a `Link<T>` value (`Option<Rc<..>>`): dropping `Some` drops
one strong reference to its target. -/
def DLList.dropLink (s : DLList α) : Option Addr → DLList α
  | some p => s.decStrong p
  | none => s

/-- Models `Node::new(elem)`: a fresh `Rc<RefCell<Node>>` with both links `None`,
strong count 1, unborrowed.  Returns the fresh address and the new state. -/
def DLList.allocNode (s : DLList α) (elem : α) : Addr × DLList α :=
  (s.heap.fresh,
   { s with heap :=
      { cells := fun x =>
          if x = s.heap.fresh then
            some { node := { elem := elem, next := none, prev := none },
                   strong := 1, borrow := .free }
          else s.heap.cells x,
        fresh := s.heap.fresh + 1 } })

/-- Models `a.borrow_mut().next = link`: runtime borrow check, write the `next`
field, drop the overwritten old link.  Panics if the cell is borrowed. -/
def DLList.setNext (s : DLList α) (a : Addr) (link : Option Addr) : Res (DLList α) Unit :=
  match s.read a with
  | none => .fatal s
  | some c =>
    match c.borrow with
    | .free => .ok () ((s.write a { c with node := { c.node with next := link } }).dropLink c.node.next)
    | _ => .fatal s

/-- Models `a.borrow_mut().prev = link`: as `setNext` for the `prev` field. -/
def DLList.setPrev (s : DLList α) (a : Addr) (link : Option Addr) : Res (DLList α) Unit :=
  match s.read a with
  | none => .fatal s
  | some c =>
    match c.borrow with
    | .free => .ok () ((s.write a { c with node := { c.node with prev := link } }).dropLink c.node.prev)
    | _ => .fatal s

/-- Models `a.borrow_mut().next.take()`: runtime borrow check, move the old `next`
link out (no drop) and leave `None`. -/
def DLList.takeNext (s : DLList α) (a : Addr) : Res (DLList α) (Option Addr) :=
  match s.read a with
  | none => .fatal s
  | some c =>
    match c.borrow with
    | .free => .ok c.node.next (s.write a { c with node := { c.node with next := none } })
    | _ => .fatal s

/-- Models `a.borrow_mut().prev.take()`: as `takeNext` for the `prev` field. -/
def DLList.takePrev (s : DLList α) (a : Addr) : Res (DLList α) (Option Addr) :=
  match s.read a with
  | none => .fatal s
  | some c =>
    match c.borrow with
    | .free => .ok c.node.prev (s.write a { c with node := { c.node with prev := none } })
    | _ => .fatal s

/-- Models `List::push_front`.  `Node::new`, then: non-empty case — take the head
anchor, `curr_head.borrow_mut().prev = Some(new_head.clone())` (the clone
is evaluated first), `new_head.borrow_mut().next = Some(curr_head)` (a
move), repoint `head`; empty case — `self.tail = Some(new_head.clone())`
(dropping any old tail value), then `self.head = Some(new_head)`. -/
def DLList.pushFront (s : DLList α) (elem : α) : Res (DLList α) Unit :=
  let an := s.allocNode elem
  match an.2.head with
  | some ch =>
    let s1 : DLList α := { an.2 with head := none }
    match (s1.incStrong an.1).setPrev ch (some an.1) with
    | .fatal u => .fatal u
    | .ok _ s2 =>
      match s2.setNext an.1 (some ch) with
      | .fatal u => .fatal u
      | .ok _ s3 => .ok () { s3 with head := some an.1 }
  | none =>
    let s1 := (an.2.incStrong an.1).dropLink an.2.tail
    .ok () { s1 with tail := some an.1, head := some an.1 }

/-- Models `List::push_back`, mirror of `pushFront`: in the empty case the source
assigns `self.head = Some(new_tail.clone())` first, then
`self.tail = Some(new_tail)`. -/
def DLList.pushBack (s : DLList α) (elem : α) : Res (DLList α) Unit :=
  let an := s.allocNode elem
  match an.2.tail with
  | some ct =>
    let s1 : DLList α := { an.2 with tail := none }
    match (s1.incStrong an.1).setNext ct (some an.1) with
    | .fatal u => .fatal u
    | .ok _ s2 =>
      match s2.setPrev an.1 (some ct) with
      | .fatal u => .fatal u
      | .ok _ s3 => .ok () { s3 with tail := some an.1 }
  | none =>
    let s1 := (an.2.incStrong an.1).dropLink an.2.head
    .ok () { s1 with head := some an.1, tail := some an.1 }

/-- Body of the `pop_front` closure before `Rc::try_unwrap`, started from
the state in which `self.head.take()` has already moved the old head
anchor into `ch`: `curr_head.borrow_mut().next.take()`, then either clear
the new head's `prev` back-link (dropping it) and repoint `head`, or (list
had one element) `self.tail.take()` and drop it. -/
def DLList.popFrontAux (s1 : DLList α) (ch : Addr) : Res (DLList α) Unit :=
  match s1.takeNext ch with
  | .fatal u => .fatal u
  | .ok oldNext s2 =>
    match oldNext with
    | some nh =>
      match s2.takePrev nh with
      | .fatal u => .fatal u
      | .ok oldPrev s3 => .ok () { s3.dropLink oldPrev with head := some nh }
    | none =>
      .ok () { s2.dropLink s2.tail with tail := none }

/-- Models `Rc::try_unwrap(..).ok().unwrap().into_inner().elem`: succeeds exactly
when the strong count is 1, freeing the allocation and dropping the node's
remaining `next`/`prev` links; otherwise `.ok()` drops the `Err` handle and
`unwrap()` panics. -/
def DLList.tryUnwrap (s : DLList α) (a : Addr) : Res (DLList α) α :=
  match s.read a with
  | none => .fatal s
  | some c =>
    if c.strong = 1 then
      .ok c.node.elem (((s.removeCell a).dropLink c.node.next).dropLink c.node.prev)
    else .fatal (s.decStrong a)

/-- Models `List::pop_front`. -/
def DLList.popFront (s : DLList α) : Res (DLList α) (Option α) :=
  match s.head with
  | none => .ok none s
  | some ch =>
    match DLList.popFrontAux { s with head := none } ch with
    | .fatal u => .fatal u
    | .ok _ u =>
      match u.tryUnwrap ch with
      | .fatal u' => .fatal u'
      | .ok v u' => .ok (some v) u'

/-- Body of the `pop_back` closure before `Rc::try_unwrap`, mirror of
`popFrontAux`. -/
def DLList.popBackAux (s1 : DLList α) (ct : Addr) : Res (DLList α) Unit :=
  match s1.takePrev ct with
  | .fatal u => .fatal u
  | .ok oldPrev s2 =>
    match oldPrev with
    | some nt =>
      match s2.takeNext nt with
      | .fatal u => .fatal u
      | .ok oldNext s3 => .ok () { s3.dropLink oldNext with tail := some nt }
    | none =>
      .ok () { s2.dropLink s2.head with head := none }

/-- Models `List::pop_back`. -/
def DLList.popBack (s : DLList α) : Res (DLList α) (Option α) :=
  match s.tail with
  | none => .ok none s
  | some ct =>
    match DLList.popBackAux { s with tail := none } ct with
    | .fatal u => .fatal u
    | .ok _ u =>
      match u.tryUnwrap ct with
      | .fatal u' => .fatal u'
      | .ok v u' => .ok (some v) u'

/-- Models `List::peek_front`: `self.head.as_ref().map(|node| Ref::map(node.borrow(), ..))`.
The returned `Ref<T>` view is modelled by the address of the node it looks
into; acquiring it bumps the cell's shared-borrow count, and panics if an
exclusive borrow is outstanding. -/
def DLList.peekFront (s : DLList α) : Res (DLList α) (Option Addr) :=
  match s.head with
  | none => .ok none s
  | some a =>
    match s.read a with
    | none => .fatal s
    | some c =>
      match c.borrow with
      | .writing => .fatal s
      | .free => .ok (some a) (s.write a { c with borrow := .reading 1 })
      | .reading k => .ok (some a) (s.write a { c with borrow := .reading (k + 1) })

/-- Models `List::peek_front_mut`: `RefMut::map(node.borrow_mut(), ..)`; panics if
any borrow (shared or exclusive) is outstanding on the head node. -/
def DLList.peekFrontMut (s : DLList α) : Res (DLList α) (Option Addr) :=
  match s.head with
  | none => .ok none s
  | some a =>
    match s.read a with
    | none => .fatal s
    | some c =>
      match c.borrow with
      | .free => .ok (some a) (s.write a { c with borrow := .writing })
      | _ => .fatal s

/-- Models `List::peek_back`, as `peekFront` on the tail anchor. -/
def DLList.peekBack (s : DLList α) : Res (DLList α) (Option Addr) :=
  match s.tail with
  | none => .ok none s
  | some a =>
    match s.read a with
    | none => .fatal s
    | some c =>
      match c.borrow with
      | .writing => .fatal s
      | .free => .ok (some a) (s.write a { c with borrow := .reading 1 })
      | .reading k => .ok (some a) (s.write a { c with borrow := .reading (k + 1) })

/-- Models `List::peek_back_mut`, as `peekFrontMut` on the tail anchor. -/
def DLList.peekBackMut (s : DLList α) : Res (DLList α) (Option Addr) :=
  match s.tail with
  | none => .ok none s
  | some a =>
    match s.read a with
    | none => .fatal s
    | some c =>
      match c.borrow with
      | .free => .ok (some a) (s.write a { c with borrow := .writing })
      | _ => .fatal s

/-- Reading the element through an outstanding `Ref`/`RefMut` view. -/
def DLList.readView (s : DLList α) (a : Addr) : Option α :=
  (s.read a).map fun c => c.node.elem

/-- Overwriting the element through an outstanding `RefMut` view
(`*view = v`). -/
def DLList.writeView (s : DLList α) (a : Addr) (v : α) : DLList α :=
  match s.read a with
  | none => s
  | some c => s.write a { c with node := { c.node with elem := v } }

/-- Dropping a shared `Ref` view: one fewer outstanding reader. -/
def DLList.dropView (s : DLList α) (a : Addr) : DLList α :=
  match s.read a with
  | none => s
  | some c =>
    match c.borrow with
    | .reading 1 => s.write a { c with borrow := .free }
    | .reading (k + 2) => s.write a { c with borrow := .reading (k + 1) }
    | _ => s

/-- Dropping an exclusive `RefMut` view: the cell becomes unborrowed. -/
def DLList.dropViewMut (s : DLList α) (a : Addr) : DLList α :=
  match s.read a with
  | none => s
  | some c =>
    match c.borrow with
    | .writing => s.write a { c with borrow := .free }
    | _ => s

/-- Run `push_front` once per value, left to right. -/
def DLList.pushFrontAll (s : DLList α) : List α → Res (DLList α) Unit
  | [] => .ok () s
  | v :: vs =>
    match s.pushFront v with
    | .fatal u => .fatal u
    | .ok _ s' => s'.pushFrontAll vs

/-- Run `push_back` once per value, left to right. -/
def DLList.pushBackAll (s : DLList α) : List α → Res (DLList α) Unit
  | [] => .ok () s
  | v :: vs =>
    match s.pushBack v with
    | .fatal u => .fatal u
    | .ok _ s' => s'.pushBackAll vs

/-- Run `pop_front` `n` times, collecting the returned options. -/
def DLList.popFrontN (s : DLList α) : Nat → Res (DLList α) (List (Option α))
  | 0 => .ok [] s
  | n + 1 =>
    match s.popFront with
    | .fatal u => .fatal u
    | .ok v s' =>
      match s'.popFrontN n with
      | .fatal u => .fatal u
      | .ok vs s'' => .ok (v :: vs) s''

/-- Run `pop_back` `n` times, collecting the returned options. -/
def DLList.popBackN (s : DLList α) : Nat → Res (DLList α) (List (Option α))
  | 0 => .ok [] s
  | n + 1 =>
    match s.popBack with
    | .fatal u => .fatal u
    | .ok v s' =>
      match s'.popBackN n with
      | .fatal u => .fatal u
      | .ok vs s'' => .ok (v :: vs) s''

/-- The destructor loop `while self.pop_front().is_some() {}` of
`impl Drop for List`, fuel-indexed: `none` means the fuel ran out before
the loop finished, `some (.ok k s')` means the loop terminated normally
after `k` successful pops (the `k + 1`-st `pop_front` returned `None`). -/
def DLList.dropLoop : Nat → DLList α → Option (Res (DLList α) Nat)
  | 0, _ => none
  | fuel + 1, s =>
    match s.popFront with
    | .fatal u => some (.fatal u)
    | .ok none s' => some (.ok 0 s')
    | .ok (some _) s' =>
      match DLList.dropLoop fuel s' with
      | none => none
      | some (.fatal u) => some (.fatal u)
      | some (.ok k u) => some (.ok (k + 1) u)

/-- Follow `next` links starting at `cur` for at most `fuel` steps,
recording the addresses visited. -/
def DLList.walkNext (s : DLList α) : Nat → Option Addr → List Addr
  | 0, _ => []
  | _, none => []
  | fuel + 1, some a =>
    a :: (match s.read a with
          | some c => s.walkNext fuel c.node.next
          | none => [])

/-- Follow `prev` links starting at `cur` for at most `fuel` steps. -/
def DLList.walkPrev (s : DLList α) : Nat → Option Addr → List Addr
  | 0, _ => []
  | _, none => []
  | fuel + 1, some a =>
    a :: (match s.read a with
          | some c => s.walkPrev fuel c.node.prev
          | none => [])

/-! Section: The representation invariant -/

/-- The structural shape of a cell: payload node and strong count, with the
borrow flag erased. -/
def shapeAt (f : Addr → Option (Cell α)) (a : Addr) : Option (Node α × Nat) :=
  (f a).map fun c => (c.node, c.strong)

/-- Predicate `chainF f pv cur l`: starting at link `cur`, whose previous node (if
any) is `pv`, the heap `f` holds a doubly linked chain visiting exactly the
address/value pairs of `l` and ending with a `none` forward link.  Every
cell on the chain has strong count 2 (its two structural owners: anchors
and/or neighbor edges). -/
def chainF (f : Addr → Option (Cell α)) : Option Addr → Option Addr → List (Addr × α) → Prop
  | _, cur, [] => cur = none
  | pv, cur, p :: rest =>
    cur = some p.1 ∧ ∃ c, f p.1 = some c ∧ c.node.elem = p.2 ∧ c.node.prev = pv ∧
      c.strong = 2 ∧ chainF f (some p.1) c.node.next rest

/-- Structural well-formedness of a list state, relative to the
address/value pairs `l` of its nodes in front-to-back order: the heap holds
the doubly linked chain anchored at `head`, `tail` is its last address, the
addresses are distinct, and all of them are below the allocator's fresh
counter. -/
structure WFs (s : DLList α) (l : List (Addr × α)) : Prop where
  chain_ok : chainF s.heap.cells none s.head l
  tail_ok : s.tail = (l.map Prod.fst).getLast?
  nodup : (l.map Prod.fst).Nodup
  fresh_ok : ∀ p ∈ l, p.1 < s.heap.fresh

/-- Invariant of states reachable through the public API with no view
outstanding: structurally well formed, and every node is unborrowed. -/
structure WFon (s : DLList α) (l : List (Addr × α)) extends WFs s l : Prop where
  flags : ∀ p ∈ l, ∀ c, s.read p.1 = some c → c.borrow = .free

/-! Section: Heap access lemmas -/

@[simp] lemma DLList.read_write_self (s : DLList α) (a : Addr) (c : Cell α) :
    (s.write a c).read a = some c := by
  simp [DLList.read, DLList.write]

lemma DLList.read_write_ne {s : DLList α} {x a : Addr} {c : Cell α} (h : x ≠ a) :
    (s.write a c).read x = s.read x := by
  simp [DLList.read, DLList.write, h]

@[simp] lemma DLList.write_head (s : DLList α) (a : Addr) (c : Cell α) :
    (s.write a c).head = s.head := rfl

@[simp] lemma DLList.write_tail (s : DLList α) (a : Addr) (c : Cell α) :
    (s.write a c).tail = s.tail := rfl

@[simp] lemma DLList.write_fresh (s : DLList α) (a : Addr) (c : Cell α) :
    (s.write a c).heap.fresh = s.heap.fresh := rfl

@[simp] lemma DLList.read_removeCell_self (s : DLList α) (a : Addr) :
    (s.removeCell a).read a = none := by
  simp [DLList.read, DLList.removeCell]

lemma DLList.read_removeCell_ne {s : DLList α} {x a : Addr} (h : x ≠ a) :
    (s.removeCell a).read x = s.read x := by
  simp [DLList.read, DLList.removeCell, h]

@[simp] lemma DLList.removeCell_head (s : DLList α) (a : Addr) :
    (s.removeCell a).head = s.head := rfl

@[simp] lemma DLList.removeCell_tail (s : DLList α) (a : Addr) :
    (s.removeCell a).tail = s.tail := rfl

@[simp] lemma DLList.removeCell_fresh (s : DLList α) (a : Addr) :
    (s.removeCell a).heap.fresh = s.heap.fresh := rfl

lemma DLList.incStrong_read_self {s : DLList α} {a : Addr} {c : Cell α}
    (h : s.read a = some c) :
    (s.incStrong a).read a = some { c with strong := c.strong + 1 } := by
  simp [DLList.incStrong, h]

lemma DLList.incStrong_read_ne {s : DLList α} {x a : Addr} (h : x ≠ a) :
    (s.incStrong a).read x = s.read x := by
  unfold DLList.incStrong
  rcases hr : s.read a with _ | c
  · rfl
  · exact DLList.read_write_ne h

lemma DLList.decStrong_read_self {s : DLList α} {a : Addr} {c : Cell α}
    (h : s.read a = some c) :
    (s.decStrong a).read a = some { c with strong := c.strong - 1 } := by
  simp [DLList.decStrong, h]

lemma DLList.decStrong_read_ne {s : DLList α} {x a : Addr} (h : x ≠ a) :
    (s.decStrong a).read x = s.read x := by
  unfold DLList.decStrong
  rcases hr : s.read a with _ | c
  · rfl
  · exact DLList.read_write_ne h

@[simp] lemma DLList.incStrong_head (s : DLList α) (a : Addr) :
    (s.incStrong a).head = s.head := by
  unfold DLList.incStrong; rcases s.read a with _ | c <;> rfl

@[simp] lemma DLList.incStrong_tail (s : DLList α) (a : Addr) :
    (s.incStrong a).tail = s.tail := by
  unfold DLList.incStrong; rcases s.read a with _ | c <;> rfl

@[simp] lemma DLList.incStrong_fresh (s : DLList α) (a : Addr) :
    (s.incStrong a).heap.fresh = s.heap.fresh := by
  unfold DLList.incStrong; rcases s.read a with _ | c <;> rfl

@[simp] lemma DLList.decStrong_head (s : DLList α) (a : Addr) :
    (s.decStrong a).head = s.head := by
  unfold DLList.decStrong; rcases s.read a with _ | c <;> rfl

@[simp] lemma DLList.decStrong_tail (s : DLList α) (a : Addr) :
    (s.decStrong a).tail = s.tail := by
  unfold DLList.decStrong; rcases s.read a with _ | c <;> rfl

@[simp] lemma DLList.decStrong_fresh (s : DLList α) (a : Addr) :
    (s.decStrong a).heap.fresh = s.heap.fresh := by
  unfold DLList.decStrong; rcases s.read a with _ | c <;> rfl

@[simp] lemma DLList.dropLink_none (s : DLList α) : s.dropLink none = s := rfl

@[simp] lemma DLList.dropLink_some (s : DLList α) (p : Addr) :
    s.dropLink (some p) = s.decStrong p := rfl

lemma DLList.dropLink_head (s : DLList α) (o : Option Addr) :
    (s.dropLink o).head = s.head := by
  cases o <;> simp

lemma DLList.dropLink_tail (s : DLList α) (o : Option Addr) :
    (s.dropLink o).tail = s.tail := by
  cases o <;> simp

lemma DLList.dropLink_fresh (s : DLList α) (o : Option Addr) :
    (s.dropLink o).heap.fresh = s.heap.fresh := by
  cases o <;> simp

lemma DLList.dropLink_read_ne {s : DLList α} {x : Addr} {o : Option Addr}
    (h : o ≠ some x) : (s.dropLink o).read x = s.read x := by
  cases o with
  | none => rfl
  | some p =>
    have : x ≠ p := fun he => h (by rw [he])
    simpa using s.decStrong_read_ne this

lemma DLList.allocNode_read_self (s : DLList α) (v : α) :
    (s.allocNode v).2.read (s.allocNode v).1 =
      some { node := { elem := v, next := none, prev := none }, strong := 1, borrow := .free } := by
  simp [DLList.allocNode, DLList.read]

lemma DLList.allocNode_read_ne {s : DLList α} {x : Addr} (v : α)
    (h : x ≠ s.heap.fresh) : (s.allocNode v).2.read x = s.read x := by
  simp [DLList.allocNode, DLList.read, h]

@[simp] lemma DLList.allocNode_fst (s : DLList α) (v : α) :
    (s.allocNode v).1 = s.heap.fresh := rfl

@[simp] lemma DLList.allocNode_head (s : DLList α) (v : α) :
    (s.allocNode v).2.head = s.head := rfl

@[simp] lemma DLList.allocNode_tail (s : DLList α) (v : α) :
    (s.allocNode v).2.tail = s.tail := rfl

@[simp] lemma DLList.allocNode_fresh (s : DLList α) (v : α) :
    (s.allocNode v).2.heap.fresh = s.heap.fresh + 1 := rfl

/-! Section: Chain lemmas -/

lemma shapeAt_some {f f' : Addr → Option (Cell α)} {a : Addr}
    (h : shapeAt f' a = shapeAt f a) {c : Cell α} (hc : f a = some c) :
    ∃ c', f' a = some c' ∧ c'.node = c.node ∧ c'.strong = c.strong := by
  rw [shapeAt, shapeAt, hc] at h
  rcases Option.map_eq_some'.mp h with ⟨c', hc', he⟩
  exact ⟨c', hc', congrArg Prod.fst he, congrArg Prod.snd he⟩

/-- A chain only depends on the shapes (node and strong count) of the cells
it lists. -/
lemma chainF_ext {f f' : Addr → Option (Cell α)} :
    ∀ {pv cur : Option Addr} {l : List (Addr × α)},
      (∀ p ∈ l, shapeAt f' p.1 = shapeAt f p.1) →
      chainF f pv cur l → chainF f' pv cur l := by
  intro pv cur l
  induction l generalizing pv cur with
  | nil => intro _ h; exact h
  | cons p rest ih =>
    intro hagree h
    obtain ⟨hcur, c, hc, he, hp, hs, hrest⟩ := h
    obtain ⟨c', hc', hn', hs'⟩ := shapeAt_some (hagree p (by simp)) hc
    refine ⟨hcur, c', hc', ?_, ?_, ?_, ?_⟩
    · rw [hn', he]
    · rw [hn', hp]
    · rw [hs', hs]
    · rw [hn']
      exact ih (fun q hq => hagree q (by simp [hq])) hrest

/-- Every cell listed by a chain is allocated, holds the listed value, and
has strong count 2. -/
lemma chainF_mem {f : Addr → Option (Cell α)} :
    ∀ {pv cur : Option Addr} {l : List (Addr × α)}, chainF f pv cur l →
      ∀ p ∈ l, ∃ c, f p.1 = some c ∧ c.node.elem = p.2 ∧ c.strong = 2 := by
  intro pv cur l
  induction l generalizing pv cur with
  | nil => intro _ p hp; cases hp
  | cons q rest ih =>
    intro h p hp
    obtain ⟨hcur, c, hc, he, hpr, hs, hrest⟩ := h
    rcases List.mem_cons.mp hp with hh | ht
    · exact hh ▸ ⟨c, hc, he, hs⟩
    · exact ih hrest p ht

/-- The last cell of a non-empty chain: it holds the last value, its
forward link is `none`, and its back link points at the preceding node (or
at `pv` when the chain has one element). -/
lemma chainF_last {f : Addr → Option (Cell α)} :
    ∀ {pv cur : Option Addr} {l : List (Addr × α)} {t : Addr} {w : α},
      chainF f pv cur (l ++ [(t, w)]) →
      ∃ c, f t = some c ∧ c.node.elem = w ∧ c.node.next = none ∧ c.strong = 2 ∧
        c.node.prev = (match l.getLast? with
                       | some q => some q.1
                       | none => pv) := by
  intro pv cur l
  induction l generalizing pv cur with
  | nil =>
    intro t w h
    obtain ⟨hcur, c, hc, he, hp, hs, hrest⟩ := h
    exact ⟨c, hc, he, hrest, hs, hp⟩
  | cons p rest ih =>
    intro t w h
    obtain ⟨hcur, c, hc, he, hp, hs, hrest⟩ := h
    obtain ⟨ct, hct, hte, htn, hts, htp⟩ := ih hrest
    refine ⟨ct, hct, hte, htn, hts, ?_⟩
    rw [htp]
    cases hr : rest.getLast? with
    | none =>
      have : rest = [] := List.getLast?_eq_none_iff.mp hr
      subst this
      rfl
    | some q =>
      rcases rest with _ | ⟨r, rest'⟩
      · simp at hr
      · rw [List.getLast?_cons_cons, hr]

/-- Appending a fresh node behind the old last node `t` extends a chain:
`t`'s forward link is rewritten to the new address `n`, whose cell holds
the new value with back link `t`, forward link `none` and strong count 2;
all other listed cells are untouched. -/
lemma chainF_snoc {f f' : Addr → Option (Cell α)} {n : Addr} {v : α} {cn : Cell α} :
    ∀ {pv cur : Option Addr} {l : List (Addr × α)} {t : Addr} {w : α},
      chainF f pv cur (l ++ [(t, w)]) →
      (∀ p ∈ l, f' p.1 = f p.1) →
      (∀ c, f t = some c → f' t = some { c with node := { c.node with next := some n } }) →
      f' n = some cn → cn.node.elem = v → cn.node.prev = some t → cn.node.next = none →
      cn.strong = 2 →
      chainF f' pv cur ((l ++ [(t, w)]) ++ [(n, v)]) := by
  intro pv cur l
  induction l generalizing pv cur with
  | nil =>
    intro t w h hag ht hn he hp hnx hs
    obtain ⟨hcur, c, hc, hce, hcp, hcs, hcrest⟩ := h
    refine ⟨hcur, { c with node := { c.node with next := some n } }, ht c hc, hce, hcp, hcs, ?_⟩
    exact ⟨rfl, cn, hn, he, hp, hs, hnx⟩
  | cons p rest ih =>
    intro t w h hag ht hn he hp hnx hs
    obtain ⟨hcur, c, hc, hce, hcp, hcs, hcrest⟩ := h
    refine ⟨hcur, c, ?_, hce, hcp, hcs, ?_⟩
    · rw [hag p (by simp), hc]
    · exact ih hcrest (fun q hq => hag q (by simp [hq])) ht hn he hp hnx hs

/-- Removing the last node of a chain of at least two nodes: the new last
node `p` gets forward link `none`; all earlier listed cells are
untouched. -/
lemma chainF_unsnoc {f f' : Addr → Option (Cell α)} :
    ∀ {pv cur : Option Addr} {l : List (Addr × α)} {p : Addr × α} {t : Addr} {w : α},
      chainF f pv cur ((l ++ [p]) ++ [(t, w)]) →
      (∀ q ∈ l, f' q.1 = f q.1) →
      (∀ c, f p.1 = some c → f' p.1 = some { c with node := { c.node with next := none } }) →
      chainF f' pv cur (l ++ [p]) := by
  intro pv cur l
  induction l generalizing pv cur with
  | nil =>
    intro p t w h hag hp
    obtain ⟨hcur, c, hc, hce, hcp, hcs, hrest⟩ := h
    exact ⟨hcur, { c with node := { c.node with next := none } }, hp c hc, hce, hcp, hcs, rfl⟩
  | cons q rest ih =>
    intro p t w h hag hp
    obtain ⟨hcur, c, hc, hce, hcp, hcs, hrest⟩ := h
    refine ⟨hcur, c, ?_, hce, hcp, hcs, ?_⟩
    · rw [hag q (by simp), hc]
    · exact ih hrest (fun r hr => hag r (by simp [hr])) hp

/-! Section: Combinator equations -/

lemma DLList.setPrev_ok {s : DLList α} {a : Addr} {c : Cell α} (h : s.read a = some c)
    (hb : c.borrow = .free) (link : Option Addr) :
    s.setPrev a link =
      .ok () ((s.write a { c with node := { c.node with prev := link } }).dropLink c.node.prev) := by
  simp only [DLList.setPrev, h, hb]

lemma DLList.setNext_ok {s : DLList α} {a : Addr} {c : Cell α} (h : s.read a = some c)
    (hb : c.borrow = .free) (link : Option Addr) :
    s.setNext a link =
      .ok () ((s.write a { c with node := { c.node with next := link } }).dropLink c.node.next) := by
  simp only [DLList.setNext, h, hb]

lemma DLList.takePrev_ok {s : DLList α} {a : Addr} {c : Cell α} (h : s.read a = some c)
    (hb : c.borrow = .free) :
    s.takePrev a =
      .ok c.node.prev (s.write a { c with node := { c.node with prev := none } }) := by
  simp only [DLList.takePrev, h, hb]

lemma DLList.takeNext_ok {s : DLList α} {a : Addr} {c : Cell α} (h : s.read a = some c)
    (hb : c.borrow = .free) :
    s.takeNext a =
      .ok c.node.next (s.write a { c with node := { c.node with next := none } }) := by
  simp only [DLList.takeNext, h, hb]

/-! Section: Refinement: push_front -/

/-- Effect of `push_front` on a well-formed state: it never panics and
prepends the freshly allocated node to the abstract list. -/
lemma pushFront_refine {s : DLList α} {l : List (Addr × α)} (hw : WFon s l) (v : α) :
    ∃ s', s.pushFront v = .ok () s' ∧ WFon s' ((s.heap.fresh, v) :: l) := by
  rcases l with _ | ⟨⟨a, va⟩, rest⟩
  · -- empty list: both anchors become the fresh node, strong count 2
    have hhead : s.head = none := hw.chain_ok
    have htail : s.tail = none := by simpa using hw.tail_ok
    have hreadn : (s.allocNode v).2.read s.heap.fresh =
        some { node := { elem := v, next := none, prev := none }, strong := 1, borrow := .free } :=
      s.allocNode_read_self v
    refine ⟨{ (s.allocNode v).2.incStrong s.heap.fresh with
              tail := some s.heap.fresh, head := some s.heap.fresh }, ?_, ?_⟩
    · simp only [DLList.pushFront, DLList.allocNode_head, hhead, DLList.allocNode_tail, htail,
        DLList.dropLink_none, DLList.allocNode_fst]
    · have hrd : ({ (s.allocNode v).2.incStrong s.heap.fresh with
              tail := some s.heap.fresh, head := some s.heap.fresh } : DLList α).read s.heap.fresh =
          some { node := { elem := v, next := none, prev := none }, strong := 2, borrow := .free } := by
        show ((s.allocNode v).2.incStrong s.heap.fresh).read s.heap.fresh = _
        rw [DLList.incStrong_read_self hreadn]
      have hfr : ({ (s.allocNode v).2.incStrong s.heap.fresh with
              tail := some s.heap.fresh, head := some s.heap.fresh } : DLList α).heap.fresh =
          s.heap.fresh + 1 := by
        show ((s.allocNode v).2.incStrong s.heap.fresh).heap.fresh = _
        simp
      refine ⟨⟨?_, rfl, by simp, ?_⟩, ?_⟩
      · exact ⟨rfl, _, hrd, rfl, rfl, rfl, rfl⟩
      · intro p hp
        simp only [List.mem_singleton] at hp
        subst hp
        rw [hfr]
        exact Nat.lt_succ_self _
      · intro p hp c hc
        simp only [List.mem_singleton] at hp
        subst hp
        rw [hrd] at hc
        cases hc
        rfl
  · -- non-empty list: link the fresh node in front of the old head `a`
    obtain ⟨hcur, c₀, hc₀, he₀, hp₀, hs₀, hrest⟩ := hw.chain_ok
    have hflag : c₀.borrow = .free := hw.flags (a, va) (by simp) c₀ hc₀
    have ha_lt : a < s.heap.fresh := hw.fresh_ok (a, va) (by simp)
    have hane : a ≠ s.heap.fresh := Nat.ne_of_lt ha_lt
    have hnotin : a ∉ rest.map Prod.fst := by
      have h := hw.nodup
      simp only [List.map_cons] at h
      exact (List.nodup_cons.mp h).1
    have hrest_lt : ∀ q ∈ rest, q.1 < s.heap.fresh := fun q hq => hw.fresh_ok q (by simp [hq])
    have e2 : (({ (s.allocNode v).2 with head := none }).incStrong s.heap.fresh).read a
        = some c₀ := by
      rw [DLList.incStrong_read_ne hane]
      show (s.allocNode v).2.read a = some c₀
      rw [DLList.allocNode_read_ne v hane]
      exact hc₀
    have e2n : (({ (s.allocNode v).2 with head := none }).incStrong s.heap.fresh).read s.heap.fresh
        = some { node := { elem := v, next := none, prev := none }, strong := 2, borrow := .free } := by
      have h1 : ({ (s.allocNode v).2 with head := none } : DLList α).read s.heap.fresh =
          some { node := { elem := v, next := none, prev := none }, strong := 1, borrow := .free } :=
        s.allocNode_read_self v
      rw [DLList.incStrong_read_self h1]
    have e3n : ((({ (s.allocNode v).2 with head := none }).incStrong s.heap.fresh).write a
          { c₀ with node := { c₀.node with prev := some s.heap.fresh } }).read s.heap.fresh
        = some { node := { elem := v, next := none, prev := none }, strong := 2, borrow := .free } := by
      rw [DLList.read_write_ne (Ne.symm hane)]
      exact e2n
    refine ⟨{ (((({ (s.allocNode v).2 with head := none }).incStrong s.heap.fresh).write a
          { c₀ with node := { c₀.node with prev := some s.heap.fresh } }).write s.heap.fresh
          { node := { elem := v, next := some a, prev := none }, strong := 2, borrow := .free })
          with head := some s.heap.fresh }, ?_, ?_⟩
    · simp only [DLList.pushFront, DLList.allocNode_head, hcur, DLList.allocNode_fst,
        DLList.setPrev_ok e2 hflag, hp₀, DLList.dropLink_none, DLList.setNext_ok e3n rfl]
    · -- reads on the final state
      have rn : ∀ x : Addr, x ≠ s.heap.fresh → x ≠ a →
          ({ (((({ (s.allocNode v).2 with head := none }).incStrong s.heap.fresh).write a
            { c₀ with node := { c₀.node with prev := some s.heap.fresh } }).write s.heap.fresh
            { node := { elem := v, next := some a, prev := none }, strong := 2, borrow := .free })
            with head := some s.heap.fresh } : DLList α).read x = s.read x := by
        intro x hx1 hx2
        show ((((({ (s.allocNode v).2 with head := none }).incStrong s.heap.fresh).write a
            { c₀ with node := { c₀.node with prev := some s.heap.fresh } }).write s.heap.fresh
            { node := { elem := v, next := some a, prev := none }, strong := 2, borrow := .free })).read x = _
        rw [DLList.read_write_ne hx1, DLList.read_write_ne hx2,
          DLList.incStrong_read_ne hx1]
        show (s.allocNode v).2.read x = _
        rw [DLList.allocNode_read_ne v hx1]
    -- continued below
      have rfreshr : ({ (((({ (s.allocNode v).2 with head := none }).incStrong s.heap.fresh).write a
            { c₀ with node := { c₀.node with prev := some s.heap.fresh } }).write s.heap.fresh
            { node := { elem := v, next := some a, prev := none }, strong := 2, borrow := .free })
            with head := some s.heap.fresh } : DLList α).read s.heap.fresh =
          some { node := { elem := v, next := some a, prev := none }, strong := 2, borrow := .free } := by
        show ((((({ (s.allocNode v).2 with head := none }).incStrong s.heap.fresh).write a
            { c₀ with node := { c₀.node with prev := some s.heap.fresh } }).write s.heap.fresh
            { node := { elem := v, next := some a, prev := none }, strong := 2, borrow := .free })).read s.heap.fresh = _
        exact DLList.read_write_self _ _ _
      have rar : ({ (((({ (s.allocNode v).2 with head := none }).incStrong s.heap.fresh).write a
            { c₀ with node := { c₀.node with prev := some s.heap.fresh } }).write s.heap.fresh
            { node := { elem := v, next := some a, prev := none }, strong := 2, borrow := .free })
            with head := some s.heap.fresh } : DLList α).read a =
          some { c₀ with node := { c₀.node with prev := some s.heap.fresh } } := by
        show ((((({ (s.allocNode v).2 with head := none }).incStrong s.heap.fresh).write a
            { c₀ with node := { c₀.node with prev := some s.heap.fresh } }).write s.heap.fresh
            { node := { elem := v, next := some a, prev := none }, strong := 2, borrow := .free })).read a = _
        rw [DLList.read_write_ne hane]
        exact DLList.read_write_self _ _ _
      have hfr2 : ({ (((({ (s.allocNode v).2 with head := none }).incStrong s.heap.fresh).write a
            { c₀ with node := { c₀.node with prev := some s.heap.fresh } }).write s.heap.fresh
            { node := { elem := v, next := some a, prev := none }, strong := 2, borrow := .free })
            with head := some s.heap.fresh } : DLList α).heap.fresh = s.heap.fresh + 1 := by
        show ((((({ (s.allocNode v).2 with head := none }).incStrong s.heap.fresh).write a
            { c₀ with node := { c₀.node with prev := some s.heap.fresh } }).write s.heap.fresh
            { node := { elem := v, next := some a, prev := none }, strong := 2, borrow := .free })).heap.fresh = _
        simp
      have htl : ({ (((({ (s.allocNode v).2 with head := none }).incStrong s.heap.fresh).write a
            { c₀ with node := { c₀.node with prev := some s.heap.fresh } }).write s.heap.fresh
            { node := { elem := v, next := some a, prev := none }, strong := 2, borrow := .free })
            with head := some s.heap.fresh } : DLList α).tail = s.tail := by
        show ((((({ (s.allocNode v).2 with head := none }).incStrong s.heap.fresh).write a
            { c₀ with node := { c₀.node with prev := some s.heap.fresh } }).write s.heap.fresh
            { node := { elem := v, next := some a, prev := none }, strong := 2, borrow := .free })).tail = _
        simp
      refine ⟨⟨?_, ?_, ?_, ?_⟩, ?_⟩
      · refine ⟨rfl, _, rfreshr, rfl, rfl, rfl, ?_⟩
        refine ⟨rfl, _, rar, he₀, rfl, hs₀, ?_⟩
        refine chainF_ext (fun q hq => ?_) hrest
        have hq1 : q.1 ≠ s.heap.fresh := Nat.ne_of_lt (hrest_lt q hq)
        have hq2 : q.1 ≠ a := by
          intro he
          exact hnotin (he ▸ List.mem_map_of_mem Prod.fst hq)
        rw [shapeAt, shapeAt]
        have := rn q.1 hq1 hq2
        rw [DLList.read] at this
        rw [this]
        rfl
      · rw [htl, hw.tail_ok]
        simp only [List.map_cons]
        rw [List.getLast?_cons_cons]
      · simp only [List.map_cons, List.nodup_cons]
        refine ⟨?_, ?_, ?_⟩
        · intro hmem
          simp only [List.mem_cons] at hmem
          rcases hmem with h1 | h2
          · exact hane.symm h1
          · exact absurd h2 (by
              intro hx
              rcases List.mem_map.mp hx with ⟨q, hq, hqe⟩
              exact Nat.ne_of_lt (hrest_lt q hq) hqe)
        · have h := hw.nodup
          simp only [List.map_cons, List.nodup_cons] at h
          exact h.1
        · have h := hw.nodup
          simp only [List.map_cons, List.nodup_cons] at h
          exact h.2
      · intro p hp
        rw [hfr2]
        rcases List.mem_cons.mp hp with h1 | h2
        · subst h1; exact Nat.lt_succ_self _
        · rcases List.mem_cons.mp h2 with h3 | h4
          · subst h3; exact Nat.lt_succ_of_lt ha_lt
          · exact Nat.lt_succ_of_lt (hrest_lt p h4)
      · intro p hp c hc
        rcases List.mem_cons.mp hp with h1 | h2
        · subst h1
          rw [rfreshr] at hc
          cases hc
          rfl
        · rcases List.mem_cons.mp h2 with h3 | h4
          · subst h3
            rw [rar] at hc
            cases hc
            exact hflag
          · have hq1 : p.1 ≠ s.heap.fresh := Nat.ne_of_lt (hrest_lt p h4)
            have hq2 : p.1 ≠ a := by
              intro he
              exact hnotin (he ▸ List.mem_map_of_mem Prod.fst h4)
            rw [rn p.1 hq1 hq2] at hc
            exact hw.flags p (by simp [h4]) c hc

/-! Section: Refinement: pop_front -/

lemma DLList.decStrong_eq {s : DLList α} {a : Addr} {c : Cell α} (h : s.read a = some c) :
    s.decStrong a = s.write a { c with strong := c.strong - 1 } := by
  simp only [DLList.decStrong, h]

lemma DLList.incStrong_eq {s : DLList α} {a : Addr} {c : Cell α} (h : s.read a = some c) :
    s.incStrong a = s.write a { c with strong := c.strong + 1 } := by
  simp only [DLList.incStrong, h]

lemma DLList.popFront_nil {s : DLList α} (h : s.head = none) : s.popFront = .ok none s := by
  simp only [DLList.popFront, h]

lemma DLList.popBack_nil {s : DLList α} (h : s.tail = none) : s.popBack = .ok none s := by
  simp only [DLList.popBack, h]

/-- Lemma: `tryUnwrap` on a solely-owned, fully severed node succeeds and frees
the node. -/
lemma DLList.tryUnwrap_spec {s : DLList α} {a : Addr} {c : Cell α} (h : s.read a = some c)
    (h1 : c.strong = 1) (hn : c.node.next = none) (hp : c.node.prev = none) :
    s.tryUnwrap a = .ok c.node.elem (s.removeCell a) := by
  simp only [DLList.tryUnwrap, h, h1, hn, hp, DLList.dropLink_none, if_true]

/-- Running `popFrontAux` on a single-node list: the node's forward link is taken,
the tail anchor is taken and dropped (one strong reference on the node
goes away). -/
lemma popFrontAux_one_spec {s1 : DLList α} {a : Addr} {c₀ : Cell α}
    (ha : s1.read a = some c₀) (haf : c₀.borrow = .free) (hnext : c₀.node.next = none)
    (htail : s1.tail = some a) :
    ∃ u, s1.popFrontAux a = .ok () u ∧ u.head = s1.head ∧ u.tail = none ∧
      u.heap.fresh = s1.heap.fresh ∧
      u.read a = some { c₀ with node := { c₀.node with next := none }, strong := c₀.strong - 1 } ∧
      (∀ x, x ≠ a → u.read x = s1.read x) := by
  have h2 : (s1.write a { c₀ with node := { c₀.node with next := none } }).read a =
      some { c₀ with node := { c₀.node with next := none } } := DLList.read_write_self _ _ _
  refine ⟨{ (s1.write a { c₀ with node := { c₀.node with next := none } }).write a
      { c₀ with node := { c₀.node with next := none }, strong := c₀.strong - 1 }
      with tail := none }, ?_, ?_, ?_, ?_, ?_, ?_⟩
  · simp only [DLList.popFrontAux, DLList.takeNext_ok ha haf, hnext, DLList.write_tail, htail,
      DLList.dropLink_some, DLList.decStrong_eq h2]
  · simp
  · rfl
  · rfl
  · exact DLList.read_write_self _ _ _
  · intro x hx
    show ((s1.write a _).write a _).read x = _
    rw [DLList.read_write_ne hx, DLList.read_write_ne hx]

/-- Running `popFrontAux` on a list of two or more nodes: the head node's forward
link is taken, the second node's back link is taken and dropped (one
strong reference on the head node goes away), and `head` is repointed. -/
lemma popFrontAux_two_spec {s1 : DLList α} {a b : Addr} {c₀ cb : Cell α}
    (ha : s1.read a = some c₀) (haf : c₀.borrow = .free) (hnext : c₀.node.next = some b)
    (hb : s1.read b = some cb) (hbf : cb.borrow = .free) (hbp : cb.node.prev = some a)
    (hab : b ≠ a) :
    ∃ u, s1.popFrontAux a = .ok () u ∧ u.head = some b ∧ u.tail = s1.tail ∧
      u.heap.fresh = s1.heap.fresh ∧
      u.read a = some { c₀ with node := { c₀.node with next := none }, strong := c₀.strong - 1 } ∧
      u.read b = some { cb with node := { cb.node with prev := none } } ∧
      (∀ x, x ≠ a → x ≠ b → u.read x = s1.read x) := by
  have hb2 : (s1.write a { c₀ with node := { c₀.node with next := none } }).read b = some cb := by
    rw [DLList.read_write_ne hab]; exact hb
  have ha2 : ((s1.write a { c₀ with node := { c₀.node with next := none } }).write b
      { cb with node := { cb.node with prev := none } }).read a =
      some { c₀ with node := { c₀.node with next := none } } := by
    rw [DLList.read_write_ne (Ne.symm hab)]
    exact DLList.read_write_self _ _ _
  refine ⟨{ ((s1.write a { c₀ with node := { c₀.node with next := none } }).write b
      { cb with node := { cb.node with prev := none } }).write a
      { c₀ with node := { c₀.node with next := none }, strong := c₀.strong - 1 }
      with head := some b }, ?_, ?_, ?_, ?_, ?_, ?_, ?_⟩
  · simp only [DLList.popFrontAux, DLList.takeNext_ok ha haf, hnext,
      DLList.takePrev_ok hb2 hbf, hbp, DLList.dropLink_some, DLList.decStrong_eq ha2]
  · rfl
  · rfl
  · rfl
  · exact DLList.read_write_self _ _ _
  · show (((s1.write a _).write b _).write a _).read b = _
    rw [DLList.read_write_ne hab]
    exact DLList.read_write_self _ _ _
  · intro x hx1 hx2
    show (((s1.write a _).write b _).write a _).read x = _
    rw [DLList.read_write_ne hx1, DLList.read_write_ne hx2, DLList.read_write_ne hx1]

/-- Effect of `pop_front` on a well-formed non-empty state: it never
panics, returns the front value, frees the front node and leaves the rest
of the list well formed and otherwise untouched. -/
lemma popFront_refine {s : DLList α} {p : Addr × α} {l : List (Addr × α)}
    (hw : WFon s (p :: l)) :
    ∃ s', s.popFront = .ok (some p.2) s' ∧ WFon s' l ∧
      s'.read p.1 = none ∧ s'.heap.fresh = s.heap.fresh ∧
      (∀ x, x ∉ (p :: l).map Prod.fst → s'.read x = s.read x) ∧
      ∃ u c, DLList.popFrontAux { s with head := none } p.1 = .ok () u ∧
        u.read p.1 = some c ∧ c.strong = 1 ∧
        u.tryUnwrap p.1 = .ok c.node.elem (u.removeCell p.1) ∧ s' = u.removeCell p.1 := by
  obtain ⟨a, va⟩ := p
  obtain ⟨hcur, c₀, hc₀, he₀, hp₀, hs₀, hrest⟩ := hw.chain_ok
  have hflag : c₀.borrow = .free := hw.flags (a, va) (by simp) c₀ hc₀
  have hc₀' : DLList.read s a = some c₀ := hc₀
  rcases l with _ | ⟨⟨b, vb⟩, rest⟩
  · -- singleton
    have hnext : c₀.node.next = none := hrest
    have hs1 : ({ s with head := none } : DLList α).read a = some c₀ := hc₀'
    have htail : ({ s with head := none } : DLList α).tail = some a := by
      show s.tail = some a
      simpa using hw.tail_ok
    obtain ⟨u, hu, huh, hut, huf, hua, hux⟩ := popFrontAux_one_spec hs1 hflag hnext htail
    have hstrong : ({ c₀ with node := { c₀.node with next := none }, strong := c₀.strong - 1 } : Cell α).strong = 1 := by
      show c₀.strong - 1 = 1
      rw [hs₀]
    have hunwrap := DLList.tryUnwrap_spec hua hstrong rfl hp₀
    refine ⟨u.removeCell a, ?_, ?_, ?_, ?_, ?_, u, _, hu, hua, hstrong, hunwrap, rfl⟩
    · simp only [DLList.popFront, hcur, hu, hunwrap, he₀]
    · refine ⟨⟨?_, ?_, by simp, ?_⟩, ?_⟩
      · show (u.removeCell a).head = none
        rw [DLList.removeCell_head, huh]
      · show (u.removeCell a).tail = ([] : List Addr).getLast?
        rw [DLList.removeCell_tail, hut]
        rfl
      · intro q hq; cases hq
      · intro q hq; cases hq
    · exact DLList.read_removeCell_self _ _
    · rw [DLList.removeCell_fresh, huf]
    · intro x hx
      simp only [List.map_cons, List.map_nil, List.mem_singleton] at hx
      rw [DLList.read_removeCell_ne hx, hux x hx]
      rfl
  · -- two or more nodes
    obtain ⟨hcur2, cb, hcb, heb, hpb, hsb, hrest2⟩ := hrest
    have hnext : c₀.node.next = some b := hcur2
    have hab : b ≠ a := by
      have h := hw.nodup
      simp only [List.map_cons, List.nodup_cons, List.mem_cons] at h
      exact fun he => h.1 (Or.inl he.symm)
    have hbflag : cb.borrow = .free := hw.flags (b, vb) (by simp) cb hcb
    have hcb' : ({ s with head := none } : DLList α).read b = some cb := hcb
    have hs1 : ({ s with head := none } : DLList α).read a = some c₀ := hc₀'
    obtain ⟨u, hu, huh, hut, huf, hua, hub, hux⟩ :=
      popFrontAux_two_spec hs1 hflag hnext hcb' hbflag hpb hab
    have hstrong : ({ c₀ with node := { c₀.node with next := none }, strong := c₀.strong - 1 } : Cell α).strong = 1 := by
      show c₀.strong - 1 = 1
      rw [hs₀]
    have hunwrap := DLList.tryUnwrap_spec hua hstrong rfl hp₀
    have hnotina : a ∉ (rest.map Prod.fst) := by
      have h := hw.nodup
      simp only [List.map_cons, List.nodup_cons, List.mem_cons] at h
      exact fun hm => h.1 (Or.inr hm)
    have hnotinb : b ∉ (rest.map Prod.fst) := by
      have h := hw.nodup
      simp only [List.map_cons, List.nodup_cons] at h
      exact h.2.1
    have hreadrest : ∀ q ∈ rest, (u.removeCell a).read q.1 = s.read q.1 := by
      intro q hq
      have hq1 : q.1 ≠ a := fun he => hnotina (he ▸ List.mem_map_of_mem Prod.fst hq)
      have hq2 : q.1 ≠ b := fun he => hnotinb (he ▸ List.mem_map_of_mem Prod.fst hq)
      rw [DLList.read_removeCell_ne hq1, hux q.1 hq1 hq2]
      rfl
    refine ⟨u.removeCell a, ?_, ?_, ?_, ?_, ?_, u, _, hu, hua, hstrong, hunwrap, rfl⟩
    · simp only [DLList.popFront, hcur, hu, hunwrap, he₀]
    · refine ⟨⟨?_, ?_, ?_, ?_⟩, ?_⟩
      · -- chain on (b, vb) :: rest
        have hrb : (u.removeCell a).read b = some { cb with node := { cb.node with prev := none } } := by
          rw [DLList.read_removeCell_ne hab, hub]
        refine ⟨by rw [DLList.removeCell_head, huh], _, hrb, heb, rfl, hsb, ?_⟩
        refine chainF_ext (fun q hq => ?_) hrest2
        rw [shapeAt, shapeAt]
        have := hreadrest q hq
        rw [DLList.read] at this
        rw [this]
        rfl
      · rw [DLList.removeCell_tail, hut]
        have h := hw.tail_ok
        simpa only [List.map_cons, List.getLast?_cons_cons] using h
      · have h := hw.nodup
        simp only [List.map_cons, List.nodup_cons] at h ⊢
        exact ⟨h.2.1, h.2.2⟩
      · intro q hq
        rw [DLList.removeCell_fresh, huf]
        exact hw.fresh_ok q (by simp [List.mem_cons.mp hq])
      · intro q hq c hc
        rcases List.mem_cons.mp hq with h1 | h2
        · subst h1
          rw [DLList.read_removeCell_ne hab, hub] at hc
          cases hc
          exact hbflag
        · rw [hreadrest q h2] at hc
          exact hw.flags q (by simp [h2]) c hc
    · exact DLList.read_removeCell_self _ _
    · rw [DLList.removeCell_fresh, huf]
    · intro x hx
      simp only [List.map_cons, List.mem_cons] at hx
      push_neg at hx
      obtain ⟨hx1, hx2, hx3⟩ := hx
      rw [DLList.read_removeCell_ne hx1, hux x hx1 hx2]
      rfl

/-! Section: Refinement: push_back -/

/-- Effect of `push_back` on a well-formed state: it never panics and
appends the freshly allocated node to the abstract list. -/
lemma pushBack_refine {s : DLList α} {l : List (Addr × α)} (hw : WFon s l) (v : α) :
    ∃ s', s.pushBack v = .ok () s' ∧ WFon s' (l ++ [(s.heap.fresh, v)]) := by
  rcases List.eq_nil_or_concat l with hl | ⟨l₀, ⟨t, w⟩, hl⟩
  · -- empty list
    subst hl
    have hhead : s.head = none := hw.chain_ok
    have htail : s.tail = none := by simpa using hw.tail_ok
    have hreadn : (s.allocNode v).2.read s.heap.fresh =
        some { node := { elem := v, next := none, prev := none }, strong := 1, borrow := .free } :=
      s.allocNode_read_self v
    refine ⟨{ (s.allocNode v).2.incStrong s.heap.fresh with
              head := some s.heap.fresh, tail := some s.heap.fresh }, ?_, ?_⟩
    · simp only [DLList.pushBack, DLList.allocNode_head, hhead, DLList.allocNode_tail, htail,
        DLList.dropLink_none, DLList.allocNode_fst]
    · have hrd : ({ (s.allocNode v).2.incStrong s.heap.fresh with
              head := some s.heap.fresh, tail := some s.heap.fresh } : DLList α).read s.heap.fresh =
          some { node := { elem := v, next := none, prev := none }, strong := 2, borrow := .free } := by
        show ((s.allocNode v).2.incStrong s.heap.fresh).read s.heap.fresh = _
        rw [DLList.incStrong_read_self hreadn]
      have hfr : ({ (s.allocNode v).2.incStrong s.heap.fresh with
              head := some s.heap.fresh, tail := some s.heap.fresh } : DLList α).heap.fresh =
          s.heap.fresh + 1 := by
        show ((s.allocNode v).2.incStrong s.heap.fresh).heap.fresh = _
        simp
      refine ⟨⟨?_, rfl, by simp, ?_⟩, ?_⟩
      · exact ⟨rfl, _, hrd, rfl, rfl, rfl, rfl⟩
      · intro p hp
        simp only [List.nil_append, List.mem_singleton] at hp
        subst hp
        rw [hfr]
        exact Nat.lt_succ_self _
      · intro p hp c hc
        simp only [List.nil_append, List.mem_singleton] at hp
        subst hp
        rw [hrd] at hc
        cases hc
        rfl
  · -- non-empty list: link the fresh node behind the old tail `t`
    rw [List.concat_eq_append] at hl
    subst hl
    have htails : s.tail = some t := by
      rw [hw.tail_ok]
      simp only [List.map_append]
      exact List.getLast?_concat _
    obtain ⟨ct, hct, hcte, hctn, hcts, hctp⟩ := chainF_last hw.chain_ok
    have hflagct : ct.borrow = .free := hw.flags (t, w) (by simp) ct hct
    have ht_lt : t < s.heap.fresh := hw.fresh_ok (t, w) (by simp)
    have htne : t ≠ s.heap.fresh := Nat.ne_of_lt ht_lt
    have hl₀_lt : ∀ q ∈ l₀, q.1 < s.heap.fresh := fun q hq => hw.fresh_ok q (by simp [hq])
    have hnd := hw.nodup
    rw [List.map_append, List.nodup_append] at hnd
    have hl₀t : ∀ q ∈ l₀, q.1 ≠ t := by
      intro q hq he
      exact hnd.2.2 (List.mem_map_of_mem Prod.fst hq) (by simp [he])
    have e2t : (({ (s.allocNode v).2 with tail := none }).incStrong s.heap.fresh).read t
        = some ct := by
      rw [DLList.incStrong_read_ne htne]
      show (s.allocNode v).2.read t = some ct
      rw [DLList.allocNode_read_ne v htne]
      exact hct
    have e2n : (({ (s.allocNode v).2 with tail := none }).incStrong s.heap.fresh).read s.heap.fresh
        = some { node := { elem := v, next := none, prev := none }, strong := 2, borrow := .free } := by
      have h1 : ({ (s.allocNode v).2 with tail := none } : DLList α).read s.heap.fresh =
          some { node := { elem := v, next := none, prev := none }, strong := 1, borrow := .free } :=
        s.allocNode_read_self v
      rw [DLList.incStrong_read_self h1]
    have e3n : ((({ (s.allocNode v).2 with tail := none }).incStrong s.heap.fresh).write t
          { ct with node := { ct.node with next := some s.heap.fresh } }).read s.heap.fresh
        = some { node := { elem := v, next := none, prev := none }, strong := 2, borrow := .free } := by
      rw [DLList.read_write_ne (Ne.symm htne)]
      exact e2n
    refine ⟨{ (((({ (s.allocNode v).2 with tail := none }).incStrong s.heap.fresh).write t
          { ct with node := { ct.node with next := some s.heap.fresh } }).write s.heap.fresh
          { node := { elem := v, next := none, prev := some t }, strong := 2, borrow := .free })
          with tail := some s.heap.fresh }, ?_, ?_⟩
    · simp only [DLList.pushBack, DLList.allocNode_tail, htails, DLList.allocNode_fst,
        DLList.setNext_ok e2t hflagct, hctn, DLList.dropLink_none, DLList.setPrev_ok e3n rfl]
    · have rn : ∀ x : Addr, x ≠ s.heap.fresh → x ≠ t →
          ({ (((({ (s.allocNode v).2 with tail := none }).incStrong s.heap.fresh).write t
            { ct with node := { ct.node with next := some s.heap.fresh } }).write s.heap.fresh
            { node := { elem := v, next := none, prev := some t }, strong := 2, borrow := .free })
            with tail := some s.heap.fresh } : DLList α).read x = s.read x := by
        intro x hx1 hx2
        show ((((({ (s.allocNode v).2 with tail := none }).incStrong s.heap.fresh).write t
            { ct with node := { ct.node with next := some s.heap.fresh } }).write s.heap.fresh
            { node := { elem := v, next := none, prev := some t }, strong := 2, borrow := .free })).read x = _
        rw [DLList.read_write_ne hx1, DLList.read_write_ne hx2, DLList.incStrong_read_ne hx1]
        show (s.allocNode v).2.read x = _
        rw [DLList.allocNode_read_ne v hx1]
      have rfreshr : ({ (((({ (s.allocNode v).2 with tail := none }).incStrong s.heap.fresh).write t
            { ct with node := { ct.node with next := some s.heap.fresh } }).write s.heap.fresh
            { node := { elem := v, next := none, prev := some t }, strong := 2, borrow := .free })
            with tail := some s.heap.fresh } : DLList α).read s.heap.fresh =
          some { node := { elem := v, next := none, prev := some t }, strong := 2, borrow := .free } := by
        show ((((({ (s.allocNode v).2 with tail := none }).incStrong s.heap.fresh).write t
            { ct with node := { ct.node with next := some s.heap.fresh } }).write s.heap.fresh
            { node := { elem := v, next := none, prev := some t }, strong := 2, borrow := .free })).read s.heap.fresh = _
        exact DLList.read_write_self _ _ _
      have rtr : ({ (((({ (s.allocNode v).2 with tail := none }).incStrong s.heap.fresh).write t
            { ct with node := { ct.node with next := some s.heap.fresh } }).write s.heap.fresh
            { node := { elem := v, next := none, prev := some t }, strong := 2, borrow := .free })
            with tail := some s.heap.fresh } : DLList α).read t =
          some { ct with node := { ct.node with next := some s.heap.fresh } } := by
        show ((((({ (s.allocNode v).2 with tail := none }).incStrong s.heap.fresh).write t
            { ct with node := { ct.node with next := some s.heap.fresh } }).write s.heap.fresh
            { node := { elem := v, next := none, prev := some t }, strong := 2, borrow := .free })).read t = _
        rw [DLList.read_write_ne htne]
        exact DLList.read_write_self _ _ _
      have hfr2 : ({ (((({ (s.allocNode v).2 with tail := none }).incStrong s.heap.fresh).write t
            { ct with node := { ct.node with next := some s.heap.fresh } }).write s.heap.fresh
            { node := { elem := v, next := none, prev := some t }, strong := 2, borrow := .free })
            with tail := some s.heap.fresh } : DLList α).heap.fresh = s.heap.fresh + 1 := by
        show ((((({ (s.allocNode v).2 with tail := none }).incStrong s.heap.fresh).write t
            { ct with node := { ct.node with next := some s.heap.fresh } }).write s.heap.fresh
            { node := { elem := v, next := none, prev := some t }, strong := 2, borrow := .free })).heap.fresh = _
        simp
      have hhd : ({ (((({ (s.allocNode v).2 with tail := none }).incStrong s.heap.fresh).write t
            { ct with node := { ct.node with next := some s.heap.fresh } }).write s.heap.fresh
            { node := { elem := v, next := none, prev := some t }, strong := 2, borrow := .free })
            with tail := some s.heap.fresh } : DLList α).head = s.head := by
        show ((((({ (s.allocNode v).2 with tail := none }).incStrong s.heap.fresh).write t
            { ct with node := { ct.node with next := some s.heap.fresh } }).write s.heap.fresh
            { node := { elem := v, next := none, prev := some t }, strong := 2, borrow := .free })).head = _
        simp
      refine ⟨⟨?_, ?_, ?_, ?_⟩, ?_⟩
      · rw [hhd]
        refine chainF_snoc hw.chain_ok ?_ ?_ rfreshr rfl rfl rfl rfl
        · intro p hp
          exact rn p.1 (Nat.ne_of_lt (hl₀_lt p hp)) (hl₀t p hp)
        · intro c hc
          have hceq : c = ct := by
            rw [hct] at hc
            exact (Option.some.inj hc).symm
          subst hceq
          exact rtr
      · simp only [List.map_append, List.map_cons, List.map_nil]
        rw [List.getLast?_append_of_ne_nil]
        · show _ = some s.heap.fresh
          rfl
        · simp
      · simp only [List.map_append, List.map_cons, List.map_nil]
        rw [List.nodup_append]
        refine ⟨?_, by simp, ?_⟩
        · have h := hw.nodup
          simpa using h
        · intro x hx hx2
          simp only [List.mem_singleton] at hx2
          subst hx2
          rcases List.mem_append.mp hx with h1 | h2
          · rcases List.mem_map.mp h1 with ⟨q, hq, hqe⟩
            exact Nat.ne_of_lt (hl₀_lt q hq) hqe
          · simp only [List.mem_singleton] at h2
            exact htne h2.symm
      · intro p hp
        rw [hfr2]
        rcases List.mem_append.mp hp with h1 | h2
        · rcases List.mem_append.mp h1 with h3 | h4
          · exact Nat.lt_succ_of_lt (hl₀_lt p h3)
          · simp only [List.mem_singleton] at h4
            subst h4
            exact Nat.lt_succ_of_lt ht_lt
        · simp only [List.mem_singleton] at h2
          subst h2
          exact Nat.lt_succ_self _
      · intro p hp c hc
        rcases List.mem_append.mp hp with h1 | h2
        · rcases List.mem_append.mp h1 with h3 | h4
          · rw [rn p.1 (Nat.ne_of_lt (hl₀_lt p h3)) (hl₀t p h3)] at hc
            exact hw.flags p (by simp [h3]) c hc
          · simp only [List.mem_singleton] at h4
            subst h4
            rw [rtr] at hc
            cases hc
            exact hflagct
        · simp only [List.mem_singleton] at h2
          subst h2
          rw [rfreshr] at hc
          cases hc
          rfl

/-! Section: Refinement: pop_back -/

/-- The second-to-last cell of a chain of at least two nodes: it holds the
second-to-last value, its forward link points at the last node, and its
back link points at the node before it (or at `pv`). -/
lemma chainF_last2 {f : Addr → Option (Cell α)} :
    ∀ {pv cur : Option Addr} {l : List (Addr × α)} {p : Addr × α} {t : Addr} {w : α},
      chainF f pv cur ((l ++ [p]) ++ [(t, w)]) →
      ∃ c, f p.1 = some c ∧ c.node.elem = p.2 ∧ c.node.next = some t ∧ c.strong = 2 ∧
        c.node.prev = (match l.getLast? with
                       | some q => some q.1
                       | none => pv) := by
  intro pv cur l
  induction l generalizing pv cur with
  | nil =>
    intro p t w h
    obtain ⟨hcur, c, hc, hce, hcp, hcs, hrest⟩ := h
    obtain ⟨hcur2, _, _, _, _, _, _⟩ := hrest
    exact ⟨c, hc, hce, hcur2, hcs, hcp⟩
  | cons q rest ih =>
    intro p t w h
    obtain ⟨hcur, c, hc, hce, hcp, hcs, hrest⟩ := h
    obtain ⟨cp, hcp2, hpe, hpn, hps, hpp⟩ := ih hrest
    refine ⟨cp, hcp2, hpe, hpn, hps, ?_⟩
    rw [hpp]
    cases hr : rest.getLast? with
    | none =>
      have : rest = [] := List.getLast?_eq_none_iff.mp hr
      subst this
      rfl
    | some r =>
      rcases rest with _ | ⟨r0, rest'⟩
      · simp at hr
      · rw [List.getLast?_cons_cons, hr]

/-- Running `popBackAux` on a single-node list: the node's back link is taken, the
head anchor is taken and dropped. -/
lemma popBackAux_one_spec {s1 : DLList α} {a : Addr} {c₀ : Cell α}
    (ha : s1.read a = some c₀) (haf : c₀.borrow = .free) (hprev : c₀.node.prev = none)
    (hhead : s1.head = some a) :
    ∃ u, s1.popBackAux a = .ok () u ∧ u.tail = s1.tail ∧ u.head = none ∧
      u.heap.fresh = s1.heap.fresh ∧
      u.read a = some { c₀ with node := { c₀.node with prev := none }, strong := c₀.strong - 1 } ∧
      (∀ x, x ≠ a → u.read x = s1.read x) := by
  have h2 : (s1.write a { c₀ with node := { c₀.node with prev := none } }).read a =
      some { c₀ with node := { c₀.node with prev := none } } := DLList.read_write_self _ _ _
  refine ⟨{ (s1.write a { c₀ with node := { c₀.node with prev := none } }).write a
      { c₀ with node := { c₀.node with prev := none }, strong := c₀.strong - 1 }
      with head := none }, ?_, ?_, ?_, ?_, ?_, ?_⟩
  · simp only [DLList.popBackAux, DLList.takePrev_ok ha haf, hprev, DLList.write_head, hhead,
      DLList.dropLink_some, DLList.decStrong_eq h2]
  · simp
  · rfl
  · rfl
  · exact DLList.read_write_self _ _ _
  · intro x hx
    show ((s1.write a _).write a _).read x = _
    rw [DLList.read_write_ne hx, DLList.read_write_ne hx]

/-- Running `popBackAux` on a list of two or more nodes: the tail node's back link
is taken, the second-to-last node's forward link is taken and dropped, and
`tail` is repointed. -/
lemma popBackAux_two_spec {s1 : DLList α} {a b : Addr} {c₀ cb : Cell α}
    (ha : s1.read a = some c₀) (haf : c₀.borrow = .free) (hprev : c₀.node.prev = some b)
    (hb : s1.read b = some cb) (hbf : cb.borrow = .free) (hbn : cb.node.next = some a)
    (hab : b ≠ a) :
    ∃ u, s1.popBackAux a = .ok () u ∧ u.tail = some b ∧ u.head = s1.head ∧
      u.heap.fresh = s1.heap.fresh ∧
      u.read a = some { c₀ with node := { c₀.node with prev := none }, strong := c₀.strong - 1 } ∧
      u.read b = some { cb with node := { cb.node with next := none } } ∧
      (∀ x, x ≠ a → x ≠ b → u.read x = s1.read x) := by
  have hb2 : (s1.write a { c₀ with node := { c₀.node with prev := none } }).read b = some cb := by
    rw [DLList.read_write_ne hab]; exact hb
  have ha2 : ((s1.write a { c₀ with node := { c₀.node with prev := none } }).write b
      { cb with node := { cb.node with next := none } }).read a =
      some { c₀ with node := { c₀.node with prev := none } } := by
    rw [DLList.read_write_ne (Ne.symm hab)]
    exact DLList.read_write_self _ _ _
  refine ⟨{ ((s1.write a { c₀ with node := { c₀.node with prev := none } }).write b
      { cb with node := { cb.node with next := none } }).write a
      { c₀ with node := { c₀.node with prev := none }, strong := c₀.strong - 1 }
      with tail := some b }, ?_, ?_, ?_, ?_, ?_, ?_, ?_⟩
  · simp only [DLList.popBackAux, DLList.takePrev_ok ha haf, hprev,
      DLList.takeNext_ok hb2 hbf, hbn, DLList.dropLink_some, DLList.decStrong_eq ha2]
  · rfl
  · rfl
  · rfl
  · exact DLList.read_write_self _ _ _
  · show (((s1.write a _).write b _).write a _).read b = _
    rw [DLList.read_write_ne hab]
    exact DLList.read_write_self _ _ _
  · intro x hx1 hx2
    show (((s1.write a _).write b _).write a _).read x = _
    rw [DLList.read_write_ne hx1, DLList.read_write_ne hx2, DLList.read_write_ne hx1]

/-- Effect of `pop_back` on a well-formed non-empty state: it never panics,
returns the back value, frees the back node and leaves the rest of the
list well formed and otherwise untouched. -/
lemma popBack_refine {s : DLList α} {l : List (Addr × α)} {t : Addr} {w : α}
    (hw : WFon s (l ++ [(t, w)])) :
    ∃ s', s.popBack = .ok (some w) s' ∧ WFon s' l ∧
      s'.read t = none ∧ s'.heap.fresh = s.heap.fresh ∧
      (∀ x, x ∉ (l ++ [(t, w)]).map Prod.fst → s'.read x = s.read x) ∧
      ∃ u c, DLList.popBackAux { s with tail := none } t = .ok () u ∧
        u.read t = some c ∧ c.strong = 1 ∧
        u.tryUnwrap t = .ok c.node.elem (u.removeCell t) ∧ s' = u.removeCell t := by
  have htails : s.tail = some t := by
    rw [hw.tail_ok]
    simp only [List.map_append]
    exact List.getLast?_concat _
  rcases List.eq_nil_or_concat l with hl | ⟨l₂, ⟨p, vp⟩, hl⟩
  · -- singleton
    subst hl
    obtain ⟨hcur, ct, hct, hcte, hctp, hcts, hctn⟩ := hw.chain_ok
    have hflag : ct.borrow = .free := hw.flags (t, w) (by simp) ct hct
    have hct1 : ({ s with tail := none } : DLList α).read t = some ct := hct
    have hh1 : ({ s with tail := none } : DLList α).head = some t := hcur
    obtain ⟨u, hu, hut, huh, huf, hua, hux⟩ := popBackAux_one_spec hct1 hflag hctp hh1
    have hstrong : ({ ct with node := { ct.node with prev := none }, strong := ct.strong - 1 } : Cell α).strong = 1 := by
      show ct.strong - 1 = 1
      rw [hcts]
    have hunwrap := DLList.tryUnwrap_spec hua hstrong hctn rfl
    refine ⟨u.removeCell t, ?_, ?_, ?_, ?_, ?_, u, _, hu, hua, hstrong, hunwrap, rfl⟩
    · simp only [DLList.popBack, htails, hu, hunwrap, hcte]
    · refine ⟨⟨?_, ?_, by simp, ?_⟩, ?_⟩
      · show (u.removeCell t).head = none
        rw [DLList.removeCell_head, huh]
      · show (u.removeCell t).tail = ([] : List Addr).getLast?
        rw [DLList.removeCell_tail, hut]
        rfl
      · intro q hq; cases hq
      · intro q hq; cases hq
    · exact DLList.read_removeCell_self _ _
    · rw [DLList.removeCell_fresh, huf]
    · intro x hx
      simp only [List.nil_append, List.map_cons, List.map_nil, List.mem_singleton] at hx
      rw [DLList.read_removeCell_ne hx, hux x hx]
      rfl
  · -- two or more nodes
    rw [List.concat_eq_append] at hl
    subst hl
    obtain ⟨ct, hct, hcte, hctn, hcts, hctp⟩ := chainF_last hw.chain_ok
    obtain ⟨cp, hcp, hpe, hpn, hps, hpp⟩ := chainF_last2 hw.chain_ok
    have hctp' : ct.node.prev = some p := by
      rw [hctp]
      rw [List.getLast?_concat]
    have hflagt : ct.borrow = .free := hw.flags (t, w) (by simp) ct hct
    have hflagp : cp.borrow = .free := hw.flags (p, vp) (by simp) cp hcp
    have hnd := hw.nodup
    rw [List.map_append, List.nodup_append] at hnd
    have hpt : p ≠ t := by
      intro he
      have h1 : t ∈ List.map Prod.fst (l₂ ++ [(p, vp)]) := by simp [he]
      have h2 : t ∈ List.map Prod.fst [(t, w)] := by simp
      exact hnd.2.2 h1 h2
    have hl₂t : ∀ q ∈ l₂, q.1 ≠ t := by
      intro q hq he
      have h1 : t ∈ List.map Prod.fst (l₂ ++ [(p, vp)]) := by
        rw [List.map_append]
        exact List.mem_append.mpr (Or.inl (he ▸ List.mem_map_of_mem Prod.fst hq))
      exact hnd.2.2 h1 (by simp)
    have hl₂p : ∀ q ∈ l₂, q.1 ≠ p := by
      intro q hq he
      have h1 := hnd.1
      rw [List.map_append, List.nodup_append] at h1
      have h2 : p ∈ List.map Prod.fst l₂ := he ▸ List.mem_map_of_mem Prod.fst hq
      exact h1.2.2 h2 (by simp)
    have hct1 : ({ s with tail := none } : DLList α).read t = some ct := hct
    have hcp1 : ({ s with tail := none } : DLList α).read p = some cp := hcp
    obtain ⟨u, hu, hut, huh, huf, hua, hub, hux⟩ :=
      popBackAux_two_spec hct1 hflagt hctp' hcp1 hflagp hpn hpt
    have hstrong : ({ ct with node := { ct.node with prev := none }, strong := ct.strong - 1 } : Cell α).strong = 1 := by
      show ct.strong - 1 = 1
      rw [hcts]
    have hunwrap := DLList.tryUnwrap_spec hua hstrong hctn rfl
    have hreadl₂ : ∀ q ∈ l₂, (u.removeCell t).read q.1 = s.read q.1 := by
      intro q hq
      rw [DLList.read_removeCell_ne (hl₂t q hq), hux q.1 (hl₂t q hq) (hl₂p q hq)]
      rfl
    have hreadp : (u.removeCell t).read p = some { cp with node := { cp.node with next := none } } := by
      rw [DLList.read_removeCell_ne hpt, hub]
    refine ⟨u.removeCell t, ?_, ?_, ?_, ?_, ?_, u, _, hu, hua, hstrong, hunwrap, rfl⟩
    · simp only [DLList.popBack, htails, hu, hunwrap, hcte]
    · refine ⟨⟨?_, ?_, ?_, ?_⟩, ?_⟩
      · have hhd : (u.removeCell t).head = s.head := by
          rw [DLList.removeCell_head, huh]
        rw [hhd]
        refine chainF_unsnoc hw.chain_ok ?_ ?_
        · intro q hq
          exact hreadl₂ q hq
        · intro c hc
          have hceq : c = cp := by
            rw [hcp] at hc
            exact (Option.some.inj hc).symm
          subst hceq
          exact hreadp
      · rw [DLList.removeCell_tail, hut]
        simp only [List.map_append, List.map_cons, List.map_nil]
        rw [List.getLast?_concat]
      · have h1 := hnd.1
        exact h1
      · intro q hq
        rw [DLList.removeCell_fresh, huf]
        exact hw.fresh_ok q (List.mem_append.mpr (Or.inl hq))
      · intro q hq c hc
        rcases List.mem_append.mp hq with h1 | h2
        · rw [hreadl₂ q h1] at hc
          exact hw.flags q (by simp [h1]) c hc
        · simp only [List.mem_singleton] at h2
          subst h2
          rw [hreadp] at hc
          cases hc
          exact hflagp
    · exact DLList.read_removeCell_self _ _
    · rw [DLList.removeCell_fresh, huf]
    · intro x hx
      have hxt : x ≠ t := by
        intro he
        exact hx (by simp [he])
      have hxp : x ≠ p := by
        intro he
        exact hx (by simp [he])
      rw [DLList.read_removeCell_ne hxt, hux x hxt hxp]
      rfl

/-! Section: Refinement: operation sequences -/

/-- The state `List::new()` is well formed and abstractly empty. -/
lemma WFon_new : WFon (DLList.new : DLList α) [] := by
  refine ⟨⟨rfl, rfl, by simp, ?_⟩, ?_⟩
  · intro p hp; cases hp
  · intro p hp; cases hp

/-- Running `push_front` over a list of values from a well-formed state:
never panics, and the pushed values sit in front in reverse order. -/
lemma pushFrontAll_refine {s : DLList α} {l : List (Addr × α)} (hw : WFon s l) :
    ∀ vs : List α, ∃ s' ps, s.pushFrontAll vs = .ok () s' ∧ WFon s' (ps ++ l) ∧
      ps.map Prod.snd = vs.reverse := by
  intro vs
  induction vs generalizing s l with
  | nil => exact ⟨s, [], rfl, hw, rfl⟩
  | cons v vs ih =>
    obtain ⟨s1, h1, hw1⟩ := pushFront_refine hw v
    obtain ⟨s', ps, h2, hw2, hps⟩ := ih hw1
    refine ⟨s', ps ++ [(s.heap.fresh, v)], ?_, ?_, ?_⟩
    · simp only [DLList.pushFrontAll, h1, h2]
    · simpa [List.append_assoc] using hw2
    · simp [hps]

/-- Running `push_back` over a list of values from a well-formed state:
never panics, and the pushed values sit at the back in order. -/
lemma pushBackAll_refine {s : DLList α} {l : List (Addr × α)} (hw : WFon s l) :
    ∀ vs : List α, ∃ s' ps, s.pushBackAll vs = .ok () s' ∧ WFon s' (l ++ ps) ∧
      ps.map Prod.snd = vs := by
  intro vs
  induction vs generalizing s l with
  | nil => exact ⟨s, [], rfl, by simpa using hw, rfl⟩
  | cons v vs ih =>
    obtain ⟨s1, h1, hw1⟩ := pushBack_refine hw v
    obtain ⟨s', ps, h2, hw2, hps⟩ := ih hw1
    refine ⟨s', (s.heap.fresh, v) :: ps, ?_, ?_, ?_⟩
    · simp only [DLList.pushBackAll, h1, h2]
    · simpa [List.append_assoc] using hw2
    · simp [hps]

/-- Popping the whole list from the front returns every value, in list
order, each wrapped in `some`. -/
lemma popFrontN_refine {s : DLList α} {l : List (Addr × α)} (hw : WFon s l) :
    ∃ s', s.popFrontN l.length = .ok (l.map (fun p => some p.2)) s' ∧ WFon s' [] := by
  induction l generalizing s with
  | nil => exact ⟨s, rfl, hw⟩
  | cons p rest ih =>
    obtain ⟨s1, h1, hw1, _, _, _, _⟩ := popFront_refine hw
    obtain ⟨s', h2, hw'⟩ := ih hw1
    refine ⟨s', ?_, hw'⟩
    simp only [List.length_cons, DLList.popFrontN, h1, h2, List.map_cons]

/-- Popping the whole list from the back returns every value, in reverse
list order, each wrapped in `some`. -/
lemma popBackN_refine {s : DLList α} {l : List (Addr × α)} (hw : WFon s l) :
    ∃ s', s.popBackN l.length = .ok (l.reverse.map (fun p => some p.2)) s' ∧ WFon s' [] := by
  induction l using List.reverseRecOn generalizing s with
  | nil => exact ⟨s, rfl, hw⟩
  | append_singleton l q ih =>
    obtain ⟨t, w⟩ := q
    obtain ⟨s1, h1, hw1, _, _, _, _⟩ := popBack_refine hw
    obtain ⟨s', h2, hw'⟩ := ih hw1
    refine ⟨s', ?_, hw'⟩
    have hlen : (l ++ [(t, w)]).length = l.length + 1 := by simp
    rw [hlen]
    simp only [DLList.popBackN, h1, h2]
    simp

lemma DLList.dropLoop_succ (fuel : Nat) (s : DLList α) :
    DLList.dropLoop (fuel + 1) s =
      match s.popFront with
      | .fatal u => some (.fatal u)
      | .ok none s' => some (.ok 0 s')
      | .ok (some _) s' =>
        match DLList.dropLoop fuel s' with
        | none => none
        | some (.fatal u) => some (.fatal u)
        | some (.ok k u) => some (.ok (k + 1) u) := rfl

/-- The destructor loop, run with exactly `n + 1` units of fuel on a
well-formed list of `n` nodes: it terminates normally after `n` successful
pops, every node's cell is freed, both anchors are cleared, and no other
cell is touched. -/
lemma dropLoop_refine {s : DLList α} {l : List (Addr × α)} (hw : WFon s l) :
    ∃ s', DLList.dropLoop (l.length + 1) s = some (.ok l.length s') ∧
      s'.head = none ∧ s'.tail = none ∧ (∀ p ∈ l, s'.read p.1 = none) ∧
      (∀ x, x ∉ l.map Prod.fst → s'.read x = s.read x) := by
  induction l generalizing s with
  | nil =>
    have hh : s.head = none := hw.chain_ok
    have ht : s.tail = none := by simpa using hw.tail_ok
    refine ⟨s, ?_, hh, ht, fun p hp => absurd hp (List.not_mem_nil p), fun x _ => rfl⟩
    simp only [List.length_nil, DLList.dropLoop, DLList.popFront_nil hh]
  | cons p rest ih =>
    obtain ⟨s1, h1, hw1, hrm, hfr, hframe, _⟩ := popFront_refine hw
    obtain ⟨s', h2, hh, ht, hcells, hframe'⟩ := ih hw1
    have hpnotin : p.1 ∉ rest.map Prod.fst := by
      have h := hw.nodup
      simp only [List.map_cons, List.nodup_cons] at h
      exact h.1
    refine ⟨s', ?_, hh, ht, ?_, ?_⟩
    · rw [List.length_cons, DLList.dropLoop_succ, h1]
      show (match DLList.dropLoop (rest.length + 1) s1 with
        | none => none
        | some (Res.fatal u) => some (Res.fatal u)
        | some (Res.ok k u) => some (Res.ok (k + 1) u)) = some (Res.ok (rest.length + 1) s')
      rw [h2]
    · intro q hq
      rcases List.mem_cons.mp hq with h3 | h4
      · subst h3
        rw [hframe' q.1 hpnotin]
        exact hrm
      · exact hcells q h4
    · intro x hx
      simp only [List.map_cons, List.mem_cons] at hx
      push_neg at hx
      rw [hframe' x hx.2]
      exact hframe x (by simp only [List.map_cons, List.mem_cons]; push_neg; exact hx)

/-- The destructor loop's result is insensitive to extra fuel: once it
terminates within `fuel` pops it returns the same answer for any larger
fuel. -/
lemma dropLoop_fuel_mono :
    ∀ {fuel fuel' : Nat} {s : DLList α} {r : Res (DLList α) Nat},
      DLList.dropLoop fuel s = some r → fuel ≤ fuel' →
      DLList.dropLoop fuel' s = some r := by
  intro fuel
  induction fuel with
  | zero => intro fuel' s r h; cases h
  | succ n ih =>
    intro fuel' s r h hle
    obtain ⟨m, rfl⟩ : ∃ m, fuel' = m + 1 := by
      cases fuel' with
      | zero => omega
      | succ k => exact ⟨k, rfl⟩
    have hnm : n ≤ m := by omega
    rw [DLList.dropLoop_succ] at h
    rw [DLList.dropLoop_succ]
    rcases hp : s.popFront with ⟨v, u⟩ | u
    · rw [hp] at h
      rcases v with _ | x
      · exact h
      · have h' : (match DLList.dropLoop n u with
            | none => none
            | some (Res.fatal u2) => some (Res.fatal u2)
            | some (Res.ok k u2) => some (Res.ok (k + 1) u2)) = some r := h
        show (match DLList.dropLoop m u with
            | none => none
            | some (Res.fatal u2) => some (Res.fatal u2)
            | some (Res.ok k u2) => some (Res.ok (k + 1) u2)) = some r
        rcases hd : DLList.dropLoop n u with _ | r1
        · rw [hd] at h'
          cases h'
        · rw [hd] at h'
          rw [ih hd hnm]
          exact h'
    · rw [hp] at h
      exact h

/-! Section: Structural consequences of well-formedness -/

lemma DLList.walkNext_succ (s : DLList α) (fuel : Nat) (a : Addr) :
    s.walkNext (fuel + 1) (some a) =
      a :: (match s.read a with
            | some c => s.walkNext fuel c.node.next
            | none => []) := rfl

lemma DLList.walkNext_none (s : DLList α) (fuel : Nat) : s.walkNext fuel none = [] := by
  cases fuel <;> rfl

lemma DLList.walkPrev_succ (s : DLList α) (fuel : Nat) (a : Addr) :
    s.walkPrev (fuel + 1) (some a) =
      a :: (match s.read a with
            | some c => s.walkPrev fuel c.node.prev
            | none => []) := rfl

lemma DLList.walkPrev_none (s : DLList α) (fuel : Nat) : s.walkPrev fuel none = [] := by
  cases fuel <;> rfl

/-- Walking `next` links from the start of a chain lists exactly the chain
addresses, with any amount of surplus fuel. -/
lemma chainF_walkNext {s : DLList α} :
    ∀ {pv cur : Option Addr} {l : List (Addr × α)}, chainF s.heap.cells pv cur l →
      ∀ k, s.walkNext (l.length + k) cur = l.map Prod.fst := by
  intro pv cur l
  induction l generalizing pv cur with
  | nil =>
    intro h k
    rw [h, DLList.walkNext_none]
    rfl
  | cons p rest ih =>
    intro h k
    obtain ⟨hcur, c, hc, he, hp, hs, hrest⟩ := h
    have hc' : s.read p.1 = some c := hc
    have harith : (p :: rest).length + k = (rest.length + k) + 1 := by
      simp only [List.length_cons]
      omega
    rw [hcur, harith]
    simp only [DLList.walkNext_succ, hc', List.map_cons]
    rw [ih hrest k]

/-- Walking `prev` links from the end of a chain lists the chain addresses
in reverse, then continues from `pv` with the surplus fuel. -/
lemma chainF_walkPrev {s : DLList α} :
    ∀ {pv cur : Option Addr} {l : List (Addr × α)} {t : Addr} {w : α},
      chainF s.heap.cells pv cur (l ++ [(t, w)]) →
      ∀ k, s.walkPrev ((l ++ [(t, w)]).length + k) (some t) =
        ((l ++ [(t, w)]).map Prod.fst).reverse ++ s.walkPrev k pv := by
  intro pv cur l
  induction l generalizing pv cur with
  | nil =>
    intro t w h k
    obtain ⟨hcur, c, hc, he, hp, hs, hrest⟩ := h
    have hc' : s.read t = some c := hc
    have harith : (([] : List (Addr × α)) ++ [(t, w)]).length + k = k + 1 := by
      simp only [List.nil_append, List.length_singleton]
      omega
    rw [harith]
    simp only [DLList.walkPrev_succ, hc', hp]
    simp
  | cons p rest ih =>
    intro t w h k
    obtain ⟨hcur, c, hc, he, hp, hs, hrest⟩ := h
    have ihk := ih hrest (k + 1)
    have harith : ((p :: rest) ++ [(t, w)] : List (Addr × α)).length + k
        = (rest ++ [(t, w)]).length + (k + 1) := by
      simp only [List.length_append, List.length_cons]
      omega
    rw [harith, ihk]
    have hc' : s.read p.1 = some c := hc
    simp only [DLList.walkPrev_succ, hc', hp, List.map_cons, List.map_append,
      List.reverse_cons, List.append_assoc]
    simp

/-- Every node of a chain either ends the chain (`next = none`) or is
mutually linked with a successor node of the chain. -/
lemma chainF_next_mem {f : Addr → Option (Cell α)} :
    ∀ {pv cur : Option Addr} {l : List (Addr × α)}, chainF f pv cur l →
      ∀ p ∈ l, ∃ c, f p.1 = some c ∧
        (c.node.next = none ∨
         ∃ q ∈ l, c.node.next = some q.1 ∧ ∃ cq, f q.1 = some cq ∧ cq.node.prev = some p.1) := by
  intro pv cur l
  induction l generalizing pv cur with
  | nil => intro _ p hp; cases hp
  | cons p rest ih =>
    intro h q hq
    obtain ⟨hcur, c, hc, he, hp, hs, hrest⟩ := h
    rcases List.mem_cons.mp hq with h1 | h2
    · subst h1
      refine ⟨c, hc, ?_⟩
      rcases rest with _ | ⟨r, rest'⟩
      · exact Or.inl hrest
      · obtain ⟨hcur2, cq, hcq, _, hqp, _, _⟩ := hrest
        exact Or.inr ⟨r, by simp, hcur2, cq, hcq, hqp⟩
    · obtain ⟨c2, hc2, hdisj⟩ := ih hrest q h2
      refine ⟨c2, hc2, ?_⟩
      rcases hdisj with h3 | ⟨q2, hq2, h4, cq2, hcq2, h5⟩
      · exact Or.inl h3
      · exact Or.inr ⟨q2, List.mem_cons_of_mem p hq2, h4, cq2, hcq2, h5⟩

/-- Every node of a chain either starts the chain (`prev = pv`, and the
chain entry link points at it) or is mutually linked with a predecessor
node of the chain. -/
lemma chainF_prev_mem {f : Addr → Option (Cell α)} :
    ∀ {pv cur : Option Addr} {l : List (Addr × α)}, chainF f pv cur l →
      ∀ q ∈ l, ∃ c, f q.1 = some c ∧
        ((c.node.prev = pv ∧ cur = some q.1) ∨
         ∃ p ∈ l, c.node.prev = some p.1 ∧ ∃ cp, f p.1 = some cp ∧ cp.node.next = some q.1) := by
  intro pv cur l
  induction l generalizing pv cur with
  | nil => intro _ q hq; cases hq
  | cons p rest ih =>
    intro h q hq
    obtain ⟨hcur, c, hc, he, hp, hs, hrest⟩ := h
    rcases List.mem_cons.mp hq with h1 | h2
    · subst h1
      exact ⟨c, hc, Or.inl ⟨hp, hcur⟩⟩
    · obtain ⟨c2, hc2, hdisj⟩ := ih hrest q h2
      refine ⟨c2, hc2, ?_⟩
      rcases hdisj with ⟨h3, h4⟩ | ⟨p2, hp2, h4, cp2, hcp2, h5⟩
      · exact Or.inr ⟨p, by simp, h3, c, hc, h4⟩
      · exact Or.inr ⟨p2, List.mem_cons_of_mem p hp2, h4, cp2, hcp2, h5⟩

/-- Mutual-edge property of a well-formed list: for nodes `a`, `b` on the
list, `a`'s forward link is `b` exactly when `b`'s back link is `a`. -/
lemma WFs_mutual {s : DLList α} {l : List (Addr × α)} (hw : WFs s l) {a b : Addr}
    (ha : a ∈ l.map Prod.fst) (hb : b ∈ l.map Prod.fst) :
    (∃ c, s.read a = some c ∧ c.node.next = some b) ↔
    (∃ c, s.read b = some c ∧ c.node.prev = some a) := by
  constructor
  · rintro ⟨c, hc, hnext⟩
    rcases List.mem_map.mp ha with ⟨p, hp, rfl⟩
    obtain ⟨c', hc', hdisj⟩ := chainF_next_mem hw.chain_ok p hp
    have hcc : c' = c := by
      have hc2 : s.heap.cells p.1 = some c := hc
      rw [hc2] at hc'
      exact (Option.some.inj hc').symm
    subst hcc
    rcases hdisj with hnone | ⟨q, hq, hnexteq, cq, hcq, hqprev⟩
    · rw [hnext] at hnone
      cases hnone
    · have hb' : b = q.1 := Option.some.inj (hnext ▸ hnexteq)
      subst hb'
      exact ⟨cq, hcq, hqprev⟩
  · rintro ⟨c, hc, hprev⟩
    rcases List.mem_map.mp hb with ⟨q, hq, rfl⟩
    obtain ⟨c', hc', hdisj⟩ := chainF_prev_mem hw.chain_ok q hq
    have hcc : c' = c := by
      have hc2 : s.heap.cells q.1 = some c := hc
      rw [hc2] at hc'
      exact (Option.some.inj hc').symm
    subst hcc
    rcases hdisj with ⟨hnone, _⟩ | ⟨p, hp, hpreveq, cp, hcp, hpnext⟩
    · rw [hprev] at hnone
      cases hnone
    · have ha' : a = p.1 := Option.some.inj (hprev ▸ hpreveq)
      subst ha'
      exact ⟨cp, hcp, hpnext⟩

/-- The head anchor is absent exactly when the list is empty. -/
lemma WFs_head_iff {s : DLList α} {l : List (Addr × α)} (hw : WFs s l) :
    s.head = none ↔ l = [] := by
  constructor
  · intro h
    rcases l with _ | ⟨p, rest⟩
    · rfl
    · obtain ⟨hcur, _⟩ := hw.chain_ok
      rw [h] at hcur
      cases hcur
  · intro h
    subst h
    exact hw.chain_ok

/-- The tail anchor is absent exactly when the list is empty. -/
lemma WFs_tail_iff {s : DLList α} {l : List (Addr × α)} (hw : WFs s l) :
    s.tail = none ↔ l = [] := by
  rw [hw.tail_ok, List.getLast?_eq_none_iff]
  simp

/-- The two anchors reference the same node exactly when the list has one
element. -/
lemma WFs_single_iff {s : DLList α} {l : List (Addr × α)} (hw : WFs s l) :
    (∃ a, s.head = some a ∧ s.tail = some a) ↔ l.length = 1 := by
  constructor
  · rintro ⟨a, hh, ht⟩
    rcases l with _ | ⟨p, rest⟩
    · rw [show s.head = none from hw.chain_ok] at hh
      cases hh
    · rcases List.eq_nil_or_concat rest with hr | ⟨r₀, q, hr⟩
      · subst hr; rfl
      · rw [List.concat_eq_append] at hr
        subst hr
        exfalso
        obtain ⟨hcur, _⟩ := hw.chain_ok
        have hap : a = p.1 := by
          rw [hh] at hcur
          exact Option.some.inj hcur
        have htl : s.tail = some q.1 := by
          rw [hw.tail_ok]
          simp only [List.map_cons, List.map_append, List.map_nil]
          rw [show p.1 :: (List.map Prod.fst r₀ ++ [q.1]) =
            (p.1 :: List.map Prod.fst r₀) ++ [q.1] from by simp]
          exact List.getLast?_concat _
        have haq : a = q.1 := by
          rw [ht] at htl
          exact Option.some.inj htl
        have hnd := hw.nodup
        simp only [List.map_cons, List.nodup_cons] at hnd
        apply hnd.1
        rw [List.map_append]
        exact List.mem_append.mpr (Or.inr (by simp [← hap, ← haq]))
  · intro h
    obtain ⟨p, hp⟩ := List.length_eq_one.mp h
    subst hp
    obtain ⟨hcur, _⟩ := hw.chain_ok
    refine ⟨p.1, hcur, ?_⟩
    rw [hw.tail_ok]
    rfl

/-! Section: Peek operations -/

lemma DLList.peekFront_nil {s : DLList α} (h : s.head = none) : s.peekFront = .ok none s := by
  simp only [DLList.peekFront, h]

lemma DLList.peekFrontMut_nil {s : DLList α} (h : s.head = none) :
    s.peekFrontMut = .ok none s := by
  simp only [DLList.peekFrontMut, h]

lemma DLList.peekBack_nil {s : DLList α} (h : s.tail = none) : s.peekBack = .ok none s := by
  simp only [DLList.peekBack, h]

lemma DLList.peekBackMut_nil {s : DLList α} (h : s.tail = none) :
    s.peekBackMut = .ok none s := by
  simp only [DLList.peekBackMut, h]

/-- Writing only the borrow flag of a cell leaves every cell's shape (node
payload and strong count) unchanged. -/
lemma shapeAt_write_borrow {s : DLList α} {a : Addr} {c : Cell α}
    (hr : s.heap.cells a = some c) (b : Borrow) :
    ∀ x, shapeAt (s.write a { c with borrow := b }).heap.cells x = shapeAt s.heap.cells x := by
  intro x
  by_cases hx : x = a
  · subst hx
    simp [shapeAt, DLList.write, hr]
  · simp [shapeAt, DLList.write, hx]

/-- A state that agrees with a structurally well-formed state on the
anchors, the allocator counter, and every cell's shape is itself
structurally well formed. -/
lemma WFs_of_frame {s s' : DLList α} {l : List (Addr × α)} (hw : WFs s l)
    (hh : s'.head = s.head) (ht : s'.tail = s.tail) (hf : s'.heap.fresh = s.heap.fresh)
    (hsh : ∀ x, shapeAt s'.heap.cells x = shapeAt s.heap.cells x) : WFs s' l := by
  refine ⟨?_, ?_, hw.nodup, ?_⟩
  · rw [hh]
    exact chainF_ext (fun p _ => hsh p.1) hw.chain_ok
  · rw [ht, hw.tail_ok]
  · intro p hp
    rw [hf]
    exact hw.fresh_ok p hp

/-- A successful `peek_front` changes no anchor, no allocator state, and no
cell shape — at most a borrow flag. -/
lemma peekFront_ok_frame {s s' : DLList α} {v : Option Addr}
    (h : s.peekFront = .ok v s') :
    s'.head = s.head ∧ s'.tail = s.tail ∧ s'.heap.fresh = s.heap.fresh ∧
    ∀ x, shapeAt s'.heap.cells x = shapeAt s.heap.cells x := by
  unfold DLList.peekFront at h
  rcases hh : s.head with _ | a <;> simp only [hh] at h
  · cases h
    exact ⟨hh, rfl, rfl, fun _ => rfl⟩
  · rcases hr : s.read a with _ | c <;> simp only [hr] at h
    · cases h
    · rcases hb : c.borrow with _ | k | _ <;> simp only [hb] at h
      · cases h
        exact ⟨by rw [DLList.write_head]; exact hh, rfl, rfl, shapeAt_write_borrow hr _⟩
      · cases h
        exact ⟨by rw [DLList.write_head]; exact hh, rfl, rfl, shapeAt_write_borrow hr _⟩
      · cases h

/-- A failed `peek_front` panics before touching anything. -/
lemma peekFront_fatal_eq {s u : DLList α} (h : s.peekFront = .fatal u) : u = s := by
  unfold DLList.peekFront at h
  rcases hh : s.head with _ | a <;> simp only [hh] at h
  · cases h
  · rcases hr : s.read a with _ | c <;> simp only [hr] at h
    · cases h; rfl
    · rcases hb : c.borrow with _ | k | _ <;> simp only [hb] at h
      · cases h
      · cases h
      · cases h; rfl

/-- A successful `peek_front_mut` changes no anchor, no allocator state,
and no cell shape — only the head node's borrow flag. -/
lemma peekFrontMut_ok_frame {s s' : DLList α} {v : Option Addr}
    (h : s.peekFrontMut = .ok v s') :
    s'.head = s.head ∧ s'.tail = s.tail ∧ s'.heap.fresh = s.heap.fresh ∧
    ∀ x, shapeAt s'.heap.cells x = shapeAt s.heap.cells x := by
  unfold DLList.peekFrontMut at h
  rcases hh : s.head with _ | a <;> simp only [hh] at h
  · cases h
    exact ⟨hh, rfl, rfl, fun _ => rfl⟩
  · rcases hr : s.read a with _ | c <;> simp only [hr] at h
    · cases h
    · rcases hb : c.borrow with _ | k | _ <;> simp only [hb] at h
      · cases h
        exact ⟨by rw [DLList.write_head]; exact hh, rfl, rfl, shapeAt_write_borrow hr _⟩
      · cases h
      · cases h

/-- A failed `peek_front_mut` panics before touching anything. -/
lemma peekFrontMut_fatal_eq {s u : DLList α} (h : s.peekFrontMut = .fatal u) : u = s := by
  unfold DLList.peekFrontMut at h
  rcases hh : s.head with _ | a <;> simp only [hh] at h
  · cases h
  · rcases hr : s.read a with _ | c <;> simp only [hr] at h
    · cases h; rfl
    · rcases hb : c.borrow with _ | k | _ <;> simp only [hb] at h
      · cases h
      · cases h; rfl
      · cases h; rfl

/-- A successful `peek_back` changes no anchor, no allocator state, and no
cell shape. -/
lemma peekBack_ok_frame {s s' : DLList α} {v : Option Addr}
    (h : s.peekBack = .ok v s') :
    s'.head = s.head ∧ s'.tail = s.tail ∧ s'.heap.fresh = s.heap.fresh ∧
    ∀ x, shapeAt s'.heap.cells x = shapeAt s.heap.cells x := by
  unfold DLList.peekBack at h
  rcases hh : s.tail with _ | a <;> simp only [hh] at h
  · cases h
    exact ⟨rfl, hh, rfl, fun _ => rfl⟩
  · rcases hr : s.read a with _ | c <;> simp only [hr] at h
    · cases h
    · rcases hb : c.borrow with _ | k | _ <;> simp only [hb] at h
      · cases h
        exact ⟨rfl, by rw [DLList.write_tail]; exact hh, rfl, shapeAt_write_borrow hr _⟩
      · cases h
        exact ⟨rfl, by rw [DLList.write_tail]; exact hh, rfl, shapeAt_write_borrow hr _⟩
      · cases h

/-- A failed `peek_back` panics before touching anything. -/
lemma peekBack_fatal_eq {s u : DLList α} (h : s.peekBack = .fatal u) : u = s := by
  unfold DLList.peekBack at h
  rcases hh : s.tail with _ | a <;> simp only [hh] at h
  · cases h
  · rcases hr : s.read a with _ | c <;> simp only [hr] at h
    · cases h; rfl
    · rcases hb : c.borrow with _ | k | _ <;> simp only [hb] at h
      · cases h
      · cases h
      · cases h; rfl

/-- A successful `peek_back_mut` changes no anchor, no allocator state, and
no cell shape. -/
lemma peekBackMut_ok_frame {s s' : DLList α} {v : Option Addr}
    (h : s.peekBackMut = .ok v s') :
    s'.head = s.head ∧ s'.tail = s.tail ∧ s'.heap.fresh = s.heap.fresh ∧
    ∀ x, shapeAt s'.heap.cells x = shapeAt s.heap.cells x := by
  unfold DLList.peekBackMut at h
  rcases hh : s.tail with _ | a <;> simp only [hh] at h
  · cases h
    exact ⟨rfl, hh, rfl, fun _ => rfl⟩
  · rcases hr : s.read a with _ | c <;> simp only [hr] at h
    · cases h
    · rcases hb : c.borrow with _ | k | _ <;> simp only [hb] at h
      · cases h
        exact ⟨rfl, by rw [DLList.write_tail]; exact hh, rfl, shapeAt_write_borrow hr _⟩
      · cases h
      · cases h

/-- A failed `peek_back_mut` panics before touching anything. -/
lemma peekBackMut_fatal_eq {s u : DLList α} (h : s.peekBackMut = .fatal u) : u = s := by
  unfold DLList.peekBackMut at h
  rcases hh : s.tail with _ | a <;> simp only [hh] at h
  · cases h
  · rcases hr : s.read a with _ | c <;> simp only [hr] at h
    · cases h; rfl
    · rcases hb : c.borrow with _ | k | _ <;> simp only [hb] at h
      · cases h
      · cases h; rfl
      · cases h; rfl

/-- On a well-formed state `peek_front` never panics, and the result state
is still structurally well formed. -/
lemma peekFront_ok_of_WFon {s : DLList α} {l : List (Addr × α)} (hw : WFon s l) :
    ∃ v s', s.peekFront = .ok v s' ∧ WFs s' l := by
  rcases l with _ | ⟨p, rest⟩
  · exact ⟨none, s, DLList.peekFront_nil hw.chain_ok, hw.toWFs⟩
  · obtain ⟨hcur, c, hc, _, _, _, _⟩ := hw.chain_ok
    have hflag : c.borrow = .free := hw.flags p (by simp) c hc
    have hc' : s.read p.1 = some c := hc
    refine ⟨some p.1, s.write p.1 { c with borrow := .reading 1 }, ?_, ?_⟩
    · simp only [DLList.peekFront, hcur, hc', hflag]
    · exact WFs_of_frame hw.toWFs rfl rfl rfl (shapeAt_write_borrow hc _)

/-- On a well-formed state `peek_front_mut` never panics, and the result
state is still structurally well formed. -/
lemma peekFrontMut_ok_of_WFon {s : DLList α} {l : List (Addr × α)} (hw : WFon s l) :
    ∃ v s', s.peekFrontMut = .ok v s' ∧ WFs s' l := by
  rcases l with _ | ⟨p, rest⟩
  · exact ⟨none, s, DLList.peekFrontMut_nil hw.chain_ok, hw.toWFs⟩
  · obtain ⟨hcur, c, hc, _, _, _, _⟩ := hw.chain_ok
    have hflag : c.borrow = .free := hw.flags p (by simp) c hc
    have hc' : s.read p.1 = some c := hc
    refine ⟨some p.1, s.write p.1 { c with borrow := .writing }, ?_, ?_⟩
    · simp only [DLList.peekFrontMut, hcur, hc', hflag]
    · exact WFs_of_frame hw.toWFs rfl rfl rfl (shapeAt_write_borrow hc _)

/-- On a well-formed state `peek_back` never panics, and the result state
is still structurally well formed. -/
lemma peekBack_ok_of_WFon {s : DLList α} {l : List (Addr × α)} (hw : WFon s l) :
    ∃ v s', s.peekBack = .ok v s' ∧ WFs s' l := by
  rcases List.eq_nil_or_concat l with hl | ⟨l₀, ⟨t, w⟩, hl⟩
  · subst hl
    exact ⟨none, s, DLList.peekBack_nil (by simpa using hw.tail_ok), hw.toWFs⟩
  · rw [List.concat_eq_append] at hl
    subst hl
    have htails : s.tail = some t := by
      rw [hw.tail_ok]
      simp only [List.map_append]
      exact List.getLast?_concat _
    obtain ⟨ct, hct, _, _, _, _⟩ := chainF_last hw.chain_ok
    have hflag : ct.borrow = .free := hw.flags (t, w) (by simp) ct hct
    have hct' : s.read t = some ct := hct
    refine ⟨some t, s.write t { ct with borrow := .reading 1 }, ?_, ?_⟩
    · simp only [DLList.peekBack, htails, hct', hflag]
    · exact WFs_of_frame hw.toWFs rfl rfl rfl (shapeAt_write_borrow hct _)

/-- On a well-formed state `peek_back_mut` never panics, and the result
state is still structurally well formed. -/
lemma peekBackMut_ok_of_WFon {s : DLList α} {l : List (Addr × α)} (hw : WFon s l) :
    ∃ v s', s.peekBackMut = .ok v s' ∧ WFs s' l := by
  rcases List.eq_nil_or_concat l with hl | ⟨l₀, ⟨t, w⟩, hl⟩
  · subst hl
    exact ⟨none, s, DLList.peekBackMut_nil (by simpa using hw.tail_ok), hw.toWFs⟩
  · rw [List.concat_eq_append] at hl
    subst hl
    have htails : s.tail = some t := by
      rw [hw.tail_ok]
      simp only [List.map_append]
      exact List.getLast?_concat _
    obtain ⟨ct, hct, _, _, _, _⟩ := chainF_last hw.chain_ok
    have hflag : ct.borrow = .free := hw.flags (t, w) (by simp) ct hct
    have hct' : s.read t = some ct := hct
    refine ⟨some t, s.write t { ct with borrow := .writing }, ?_, ?_⟩
    · simp only [DLList.peekBackMut, htails, hct', hflag]
    · exact WFs_of_frame hw.toWFs rfl rfl rfl (shapeAt_write_borrow hct _)

/-- Acquiring an exclusive view on the head node, overwriting the element
through it and releasing it: only the head node's element changes, and its
borrow flag ends up free again. -/
lemma peekFrontMut_round {s : DLList α} {a : Addr} {c : Cell α} (hh : s.head = some a)
    (hr : s.read a = some c) (hb : c.borrow = .free) (v : α) :
    ∃ s1, s.peekFrontMut = .ok (some a) s1 ∧
      ((s1.writeView a v).dropViewMut a).head = s.head ∧
      ((s1.writeView a v).dropViewMut a).tail = s.tail ∧
      ((s1.writeView a v).dropViewMut a).heap.fresh = s.heap.fresh ∧
      ((s1.writeView a v).dropViewMut a).read a =
        some { node := { c.node with elem := v }, strong := c.strong, borrow := .free } ∧
      (∀ x, x ≠ a → ((s1.writeView a v).dropViewMut a).read x = s.read x) := by
  have e1 : (s.write a { c with borrow := .writing }).read a
      = some { c with borrow := .writing } := DLList.read_write_self _ _ _
  have hwv : (s.write a { c with borrow := .writing }).writeView a v
      = (s.write a { c with borrow := .writing }).write a
          { c with node := { c.node with elem := v }, borrow := .writing } := by
    simp only [DLList.writeView, e1]
  have e2 : ((s.write a { c with borrow := .writing }).write a
      { c with node := { c.node with elem := v }, borrow := .writing }).read a
      = some { c with node := { c.node with elem := v }, borrow := .writing } :=
    DLList.read_write_self _ _ _
  have hdv : (((s.write a { c with borrow := .writing }).write a
      { c with node := { c.node with elem := v }, borrow := .writing })).dropViewMut a
      = ((s.write a { c with borrow := .writing }).write a
          { c with node := { c.node with elem := v }, borrow := .writing }).write a
          { c with node := { c.node with elem := v }, borrow := .free } := by
    simp only [DLList.dropViewMut, e2]
  refine ⟨s.write a { c with borrow := .writing }, ?_, ?_, ?_, ?_, ?_, ?_⟩
  · simp only [DLList.peekFrontMut, hh, hr, hb]
  · rw [hwv, hdv]; simp
  · rw [hwv, hdv]; simp
  · rw [hwv, hdv]; simp
  · rw [hwv, hdv]
    exact DLList.read_write_self _ _ _
  · intro x hx
    rw [hwv, hdv, DLList.read_write_ne hx, DLList.read_write_ne hx, DLList.read_write_ne hx]

/-- As `peekFrontMut_round`, on the tail node via `peek_back_mut`. -/
lemma peekBackMut_round {s : DLList α} {a : Addr} {c : Cell α} (hh : s.tail = some a)
    (hr : s.read a = some c) (hb : c.borrow = .free) (v : α) :
    ∃ s1, s.peekBackMut = .ok (some a) s1 ∧
      ((s1.writeView a v).dropViewMut a).head = s.head ∧
      ((s1.writeView a v).dropViewMut a).tail = s.tail ∧
      ((s1.writeView a v).dropViewMut a).heap.fresh = s.heap.fresh ∧
      ((s1.writeView a v).dropViewMut a).read a =
        some { node := { c.node with elem := v }, strong := c.strong, borrow := .free } ∧
      (∀ x, x ≠ a → ((s1.writeView a v).dropViewMut a).read x = s.read x) := by
  have e1 : (s.write a { c with borrow := .writing }).read a
      = some { c with borrow := .writing } := DLList.read_write_self _ _ _
  have hwv : (s.write a { c with borrow := .writing }).writeView a v
      = (s.write a { c with borrow := .writing }).write a
          { c with node := { c.node with elem := v }, borrow := .writing } := by
    simp only [DLList.writeView, e1]
  have e2 : ((s.write a { c with borrow := .writing }).write a
      { c with node := { c.node with elem := v }, borrow := .writing }).read a
      = some { c with node := { c.node with elem := v }, borrow := .writing } :=
    DLList.read_write_self _ _ _
  have hdv : (((s.write a { c with borrow := .writing }).write a
      { c with node := { c.node with elem := v }, borrow := .writing })).dropViewMut a
      = ((s.write a { c with borrow := .writing }).write a
          { c with node := { c.node with elem := v }, borrow := .writing }).write a
          { c with node := { c.node with elem := v }, borrow := .free } := by
    simp only [DLList.dropViewMut, e2]
  refine ⟨s.write a { c with borrow := .writing }, ?_, ?_, ?_, ?_, ?_, ?_⟩
  · simp only [DLList.peekBackMut, hh, hr, hb]
  · rw [hwv, hdv]; simp
  · rw [hwv, hdv]; simp
  · rw [hwv, hdv]; simp
  · rw [hwv, hdv]
    exact DLList.read_write_self _ _ _
  · intro x hx
    rw [hwv, hdv, DLList.read_write_ne hx, DLList.read_write_ne hx, DLList.read_write_ne hx]

/-! Section: Concrete example states (used by the witnesses below) -/

/-- The state produced by `push_front(7)` on a fresh list: one node at
address 0, owned by both anchors (strong count 2), unborrowed. -/
def exampleOne : DLList Nat :=
  { heap :=
      { cells := fun x =>
          if x = 0 then
            some { node := { elem := 7, next := none, prev := none },
                   strong := 2, borrow := .free }
          else none,
        fresh := 1 },
    head := some 0, tail := some 0 }

lemma exampleOne_WFon : WFon exampleOne [(0, 7)] := by
  refine ⟨⟨⟨rfl, _, rfl, rfl, rfl, rfl, rfl⟩, rfl, by simp, ?_⟩, ?_⟩
  · intro p hp
    simp only [List.mem_singleton] at hp
    subst hp
    exact Nat.lt_succ_self 0
  · intro p hp c hc
    simp only [List.mem_singleton] at hp
    subst hp
    have h2 : some { node := { elem := 7, next := none, prev := none }, strong := 2, borrow := Borrow.free } = some c := hc
    cases h2
    rfl

/-- As `exampleOne`, but with one shared view outstanding on the node. -/
def exampleBusy : DLList Nat :=
  { heap :=
      { cells := fun x =>
          if x = 0 then
            some { node := { elem := 7, next := none, prev := none },
                   strong := 2, borrow := .reading 1 }
          else none,
        fresh := 1 },
    head := some 0, tail := some 0 }

/-! Section: The claims -/

/-- Claim C1: for every sequence of n `push_front` calls with values
v1..vn followed by n `pop_front` calls on the same list (and likewise n
`push_back` calls followed by n `pop_back` calls), the pop calls return
`Some vn, Some v(n-1), ..., Some v1` — reverse order of insertion per
end. -/
theorem claim1_lifo_per_end (α : Type) (vs : List α) :
    (∃ s', DLList.pushFrontAll DLList.new vs = .ok () s' ∧
       ∃ s'', DLList.popFrontN s' vs.length = .ok (vs.reverse.map some) s'') ∧
    (∃ s', DLList.pushBackAll DLList.new vs = .ok () s' ∧
       ∃ s'', DLList.popBackN s' vs.length = .ok (vs.reverse.map some) s'') := by
  constructor
  · obtain ⟨s', ps, h1, hw, hps⟩ := pushFrontAll_refine WFon_new vs
    rw [List.append_nil] at hw
    obtain ⟨s'', h2, _⟩ := popFrontN_refine hw
    refine ⟨s', h1, s'', ?_⟩
    have hlen : ps.length = vs.length := by
      have h := congrArg List.length hps
      simpa using h
    have hvals : ps.map (fun p => some p.2) = vs.reverse.map some := by
      rw [← hps, List.map_map]
      rfl
    rw [← hlen, h2, hvals]
  · obtain ⟨s', ps, h1, hw, hps⟩ := pushBackAll_refine WFon_new vs
    rw [List.nil_append] at hw
    obtain ⟨s'', h2, _⟩ := popBackN_refine hw
    refine ⟨s', h1, s'', ?_⟩
    have hlen : ps.length = vs.length := by
      have h := congrArg List.length hps
      simpa using h
    have hvals : ps.reverse.map (fun p => some p.2) = vs.reverse.map some := by
      rw [← hps, ← List.map_reverse, List.map_map]
      rfl
    rw [← hlen, h2, hvals]

/-- Claim C2: pushing v1..vn with `push_front` then popping n times with
`pop_back` returns `Some v1, ..., Some vn` (insertion order), and
symmetrically `push_back` followed by `pop_front` returns insertion
order — FIFO when pushing at one end and popping at the other. -/
theorem claim2_fifo_across_ends (α : Type) (vs : List α) :
    (∃ s', DLList.pushFrontAll DLList.new vs = .ok () s' ∧
       ∃ s'', DLList.popBackN s' vs.length = .ok (vs.map some) s'') ∧
    (∃ s', DLList.pushBackAll DLList.new vs = .ok () s' ∧
       ∃ s'', DLList.popFrontN s' vs.length = .ok (vs.map some) s'') := by
  constructor
  · obtain ⟨s', ps, h1, hw, hps⟩ := pushFrontAll_refine WFon_new vs
    rw [List.append_nil] at hw
    obtain ⟨s'', h2, _⟩ := popBackN_refine hw
    refine ⟨s', h1, s'', ?_⟩
    have hlen : ps.length = vs.length := by
      have h := congrArg List.length hps
      simpa using h
    have hvals : ps.reverse.map (fun p => some p.2) = vs.map some := by
      have hv : (List.map Prod.snd ps).reverse = vs := by
        rw [hps, List.reverse_reverse]
      rw [← hv, ← List.map_reverse, List.map_map]
      rfl
    rw [← hlen, h2, hvals]
  · obtain ⟨s', ps, h1, hw, hps⟩ := pushBackAll_refine WFon_new vs
    rw [List.nil_append] at hw
    obtain ⟨s'', h2, _⟩ := popFrontN_refine hw
    refine ⟨s', h1, s'', ?_⟩
    have hlen : ps.length = vs.length := by
      have h := congrArg List.length hps
      simpa using h
    have hvals : ps.map (fun p => some p.2) = vs.map some := by
      rw [← hps, List.map_map]
      rfl
    rw [← hlen, h2, hvals]

/-- Claim C3: on an empty list every one of `pop_front`, `pop_back`,
`peek_front`, `peek_back`, `peek_front_mut`, `peek_back_mut` returns the
absent-value indicator `None`, this can be repeated any number of times in
a row, and each such call leaves the list empty and otherwise
unchanged. -/
theorem claim3_empty_ops (α : Type) (s : DLList α) (h1 : s.head = none)
    (h2 : s.tail = none) :
    s.popFront = .ok none s ∧ s.popBack = .ok none s ∧
    s.peekFront = .ok none s ∧ s.peekBack = .ok none s ∧
    s.peekFrontMut = .ok none s ∧ s.peekBackMut = .ok none s ∧
    (∀ k, s.popFrontN k = .ok (List.replicate k none) s ∧
      s.popBackN k = .ok (List.replicate k none) s) := by
  refine ⟨DLList.popFront_nil h1, DLList.popBack_nil h2, DLList.peekFront_nil h1,
    DLList.peekBack_nil h2, DLList.peekFrontMut_nil h1, DLList.peekBackMut_nil h2, ?_⟩
  intro k
  induction k with
  | zero => exact ⟨rfl, rfl⟩
  | succ n ih =>
    constructor
    · simp only [DLList.popFrontN, DLList.popFront_nil h1, ih.1, List.replicate_succ]
    · simp only [DLList.popBackN, DLList.popBack_nil h2, ih.2, List.replicate_succ]

/-- Witness for C3 at the concrete empty list. -/
theorem claim3_witness :
    (DLList.new : DLList Nat).popFront = .ok none DLList.new ∧
    (DLList.new : DLList Nat).popFrontN 3 = .ok (List.replicate 3 none) DLList.new :=
  ⟨(claim3_empty_ops Nat DLList.new rfl rfl).1,
   ((claim3_empty_ops Nat DLList.new rfl rfl).2.2.2.2.2.2 3).1⟩

/-- Claim C4: every public operation preserves the structural
well-formedness invariant: head is absent exactly when tail is absent
(exactly when the list is empty); head and tail reference the same single
node exactly when the list has one element; whenever node A's next edge is
node B, node B's prev edge is node A and vice versa; and the list is
acyclic — following `next` from `head` reaches `tail` in exactly `len`
steps and then terminates, and following `prev` from `tail` is the exact
reverse walk. -/
theorem claim4_invariant (α : Type) (s : DLList α) (l : List (Addr × α))
    (hw : WFon s l) :
    ((s.head = none ↔ l = []) ∧ (s.tail = none ↔ l = []) ∧
     ((∃ a, s.head = some a ∧ s.tail = some a) ↔ l.length = 1) ∧
     (∀ a b, a ∈ l.map Prod.fst → b ∈ l.map Prod.fst →
        ((∃ c, s.read a = some c ∧ c.node.next = some b) ↔
         (∃ c, s.read b = some c ∧ c.node.prev = some a))) ∧
     s.walkNext (l.length + 1) s.head = l.map Prod.fst ∧
     s.walkPrev (l.length + 1) s.tail = (l.map Prod.fst).reverse) ∧
    (WFon (DLList.new : DLList α) [] ∧
     (∀ v, ∃ s', s.pushFront v = .ok () s' ∧ WFon s' ((s.heap.fresh, v) :: l)) ∧
     (∀ v, ∃ s', s.pushBack v = .ok () s' ∧ WFon s' (l ++ [(s.heap.fresh, v)])) ∧
     (∀ p rest, l = p :: rest → ∃ s', s.popFront = .ok (some p.2) s' ∧ WFon s' rest) ∧
     (∀ l₀ q, l = l₀ ++ [q] → ∃ s', s.popBack = .ok (some q.2) s' ∧ WFon s' l₀) ∧
     (∃ v s', s.peekFront = .ok v s' ∧ WFs s' l) ∧
     (∃ v s', s.peekFrontMut = .ok v s' ∧ WFs s' l) ∧
     (∃ v s', s.peekBack = .ok v s' ∧ WFs s' l) ∧
     (∃ v s', s.peekBackMut = .ok v s' ∧ WFs s' l)) := by
  refine ⟨⟨WFs_head_iff hw.toWFs, WFs_tail_iff hw.toWFs, WFs_single_iff hw.toWFs,
    fun a b ha hb => WFs_mutual hw.toWFs ha hb,
    chainF_walkNext hw.chain_ok 1, ?_⟩,
    WFon_new, ?_, ?_, ?_, ?_,
    peekFront_ok_of_WFon hw, peekFrontMut_ok_of_WFon hw,
    peekBack_ok_of_WFon hw, peekBackMut_ok_of_WFon hw⟩
  · -- reverse walk
    rcases List.eq_nil_or_concat l with hl | ⟨l₀, ⟨t, w⟩, hl⟩
    · subst hl
      have ht : s.tail = none := by simpa using hw.tail_ok
      rw [ht, DLList.walkPrev_none]
      rfl
    · rw [List.concat_eq_append] at hl
      subst hl
      have ht : s.tail = some t := by
        rw [hw.tail_ok]
        simp only [List.map_append]
        exact List.getLast?_concat _
      rw [ht, chainF_walkPrev hw.chain_ok 1, DLList.walkPrev_none, List.append_nil]
  · intro v
    obtain ⟨s', h1, h2⟩ := pushFront_refine hw v
    exact ⟨s', h1, h2⟩
  · intro v
    obtain ⟨s', h1, h2⟩ := pushBack_refine hw v
    exact ⟨s', h1, h2⟩
  · intro p rest hl
    subst hl
    obtain ⟨s', h1, h2, _⟩ := popFront_refine hw
    exact ⟨s', h1, h2⟩
  · intro l₀ q hl
    obtain ⟨t, w⟩ := q
    subst hl
    obtain ⟨s', h1, h2, _⟩ := popBack_refine hw
    exact ⟨s', h1, h2⟩

/-- Witness for C4 at the concrete one-node list. -/
theorem claim4_witness :
    (exampleOne.head = none ↔ ([(0, 7)] : List (Addr × Nat)) = []) ∧
    ((∃ a, exampleOne.head = some a ∧ exampleOne.tail = some a) ↔
      ([(0, 7)] : List (Addr × Nat)).length = 1) ∧
    exampleOne.walkNext 2 exampleOne.head = [0] :=
  ⟨(claim4_invariant Nat exampleOne [(0, 7)] exampleOne_WFon).1.1,
   (claim4_invariant Nat exampleOne [(0, 7)] exampleOne_WFon).1.2.2.1,
   (claim4_invariant Nat exampleOne [(0, 7)] exampleOne_WFon).1.2.2.2.2.1⟩

/-- Claim C5: from any reachable (well-formed, no outstanding views) state,
no public operation ever halts with a fatal invariant violation: each one
runs to completion, so the atomicity disjunction is satisfied by its first
disjunct.  Moreover the runtime exclusivity checks of the four peek
operations, the only checks that can fire from a state with outstanding
views, panic before any state is altered. -/
theorem claim5_atomic_ops (α : Type) (s : DLList α) (l : List (Addr × α))
    (hw : WFon s l) :
    ((∀ v, ∃ s', s.pushFront v = .ok () s') ∧
     (∀ v, ∃ s', s.pushBack v = .ok () s') ∧
     (∃ r s', s.popFront = .ok r s') ∧
     (∃ r s', s.popBack = .ok r s') ∧
     (∃ r s', s.peekFront = .ok r s') ∧
     (∃ r s', s.peekFrontMut = .ok r s') ∧
     (∃ r s', s.peekBack = .ok r s') ∧
     (∃ r s', s.peekBackMut = .ok r s')) ∧
    (∀ t : DLList α,
      (∀ u, t.peekFront = .fatal u → u = t) ∧
      (∀ u, t.peekFrontMut = .fatal u → u = t) ∧
      (∀ u, t.peekBack = .fatal u → u = t) ∧
      (∀ u, t.peekBackMut = .fatal u → u = t)) := by
  refine ⟨⟨?_, ?_, ?_, ?_, ?_, ?_, ?_, ?_⟩, ?_⟩
  · intro v
    obtain ⟨s', h1, _⟩ := pushFront_refine hw v
    exact ⟨s', h1⟩
  · intro v
    obtain ⟨s', h1, _⟩ := pushBack_refine hw v
    exact ⟨s', h1⟩
  · rcases l with _ | ⟨p, rest⟩
    · exact ⟨none, s, DLList.popFront_nil hw.chain_ok⟩
    · obtain ⟨s', h1, _⟩ := popFront_refine hw
      exact ⟨some p.2, s', h1⟩
  · rcases List.eq_nil_or_concat l with hl | ⟨l₀, ⟨t, w⟩, hl⟩
    · subst hl
      exact ⟨none, s, DLList.popBack_nil (by simpa using hw.tail_ok)⟩
    · rw [List.concat_eq_append] at hl
      subst hl
      obtain ⟨s', h1, _⟩ := popBack_refine hw
      exact ⟨some w, s', h1⟩
  · obtain ⟨v, s', h1, _⟩ := peekFront_ok_of_WFon hw
    exact ⟨v, s', h1⟩
  · obtain ⟨v, s', h1, _⟩ := peekFrontMut_ok_of_WFon hw
    exact ⟨v, s', h1⟩
  · obtain ⟨v, s', h1, _⟩ := peekBack_ok_of_WFon hw
    exact ⟨v, s', h1⟩
  · obtain ⟨v, s', h1, _⟩ := peekBackMut_ok_of_WFon hw
    exact ⟨v, s', h1⟩
  · intro t
    exact ⟨fun u h => peekFront_fatal_eq h, fun u h => peekFrontMut_fatal_eq h,
      fun u h => peekBack_fatal_eq h, fun u h => peekBackMut_fatal_eq h⟩

/-- Witness for C5 at the concrete one-node list. -/
theorem claim5_witness :
    (∃ r s', exampleOne.popFront = .ok r s') ∧
    (∃ r s', exampleOne.peekFrontMut = .ok r s') :=
  ⟨(claim5_atomic_ops Nat exampleOne [(0, 7)] exampleOne_WFon).1.2.2.1,
   (claim5_atomic_ops Nat exampleOne [(0, 7)] exampleOne_WFon).1.2.2.2.2.2.1⟩

/-- Claim C6: on a well-formed non-empty list with no outstanding views,
the sole-ownership reclaim step inside `pop_front` and `pop_back` never
fails: after the boundary node is severed from its anchor and its
remaining neighbor edge is cleared, that node's strong count is exactly
one (the local temporary taken to perform the pop), so `Rc::try_unwrap`
succeeds, extracts the element, and the fatal branch is unreachable. -/
theorem claim6_sole_ownership (α : Type) (s : DLList α) :
    (∀ (a : Addr) (va : α) (l : List (Addr × α)), WFon s ((a, va) :: l) →
      ∃ u, DLList.popFrontAux { s with head := none } a = .ok () u ∧
        ∃ c, u.read a = some c ∧ c.strong = 1 ∧
          u.tryUnwrap a = .ok c.node.elem (u.removeCell a) ∧
          s.popFront = .ok (some va) (u.removeCell a)) ∧
    (∀ (l : List (Addr × α)) (t : Addr) (w : α), WFon s (l ++ [(t, w)]) →
      ∃ u, DLList.popBackAux { s with tail := none } t = .ok () u ∧
        ∃ c, u.read t = some c ∧ c.strong = 1 ∧
          u.tryUnwrap t = .ok c.node.elem (u.removeCell t) ∧
          s.popBack = .ok (some w) (u.removeCell t)) := by
  constructor
  · intro a va l hw
    obtain ⟨s', h1, _, _, _, _, u, c, hu, hua, hstrong, hunwrap, heq⟩ := popFront_refine hw
    subst heq
    exact ⟨u, hu, c, hua, hstrong, hunwrap, h1⟩
  · intro l t w hw
    obtain ⟨s', h1, _, _, _, _, u, c, hu, hua, hstrong, hunwrap, heq⟩ := popBack_refine hw
    subst heq
    exact ⟨u, hu, c, hua, hstrong, hunwrap, h1⟩

/-- Witness for C6 at the concrete one-node list. -/
theorem claim6_witness :
    ∃ u, DLList.popFrontAux { exampleOne with head := none } 0 = .ok () u ∧
      ∃ c, u.read 0 = some c ∧ c.strong = 1 ∧
        u.tryUnwrap 0 = .ok c.node.elem (u.removeCell 0) ∧
        exampleOne.popFront = .ok (some 7) (u.removeCell 0) :=
  (claim6_sole_ownership Nat exampleOne).1 0 7 [] exampleOne_WFon

/-- Claim C7: for every non-empty list, requesting an exclusive view via
`peek_front_mut` or `peek_back_mut` while any other view (shared or
exclusive) on the same boundary node is still outstanding panics rather
than returning a second view; it never silently succeeds. -/
theorem claim7_exclusive_fails_fast (α : Type) (s : DLList α) (a : Addr) (c : Cell α) :
    (s.head = some a → s.read a = some c → c.borrow ≠ .free →
      s.peekFrontMut = .fatal s) ∧
    (s.tail = some a → s.read a = some c → c.borrow ≠ .free →
      s.peekBackMut = .fatal s) := by
  constructor
  · intro hh hr hb
    rcases hbc : c.borrow with _ | k | _
    · exact absurd hbc hb
    · simp only [DLList.peekFrontMut, hh, hr, hbc]
    · simp only [DLList.peekFrontMut, hh, hr, hbc]
  · intro hh hr hb
    rcases hbc : c.borrow with _ | k | _
    · exact absurd hbc hb
    · simp only [DLList.peekBackMut, hh, hr, hbc]
    · simp only [DLList.peekBackMut, hh, hr, hbc]

/-- Witness for C7: a one-node list with a shared view outstanding on its
node refuses an exclusive view at either end. -/
theorem claim7_witness :
    exampleBusy.peekFrontMut = .fatal exampleBusy ∧
    exampleBusy.peekBackMut = .fatal exampleBusy :=
  ⟨(claim7_exclusive_fails_fast Nat exampleBusy 0
      { node := { elem := 7, next := none, prev := none }, strong := 2, borrow := .reading 1 }).1 rfl rfl (by decide),
   (claim7_exclusive_fails_fast Nat exampleBusy 0
      { node := { elem := 7, next := none, prev := none }, strong := 2, borrow := .reading 1 }).2 rfl rfl (by decide)⟩

/-- Claim C8: on a non-empty list, acquiring an exclusive view with
`peek_front_mut`, writing `v` through it and releasing it, then calling
`peek_front` returns a shared view that reads exactly `v` — the mutation
is visible to subsequent shared reads. -/
theorem claim8_mut_write_visible (α : Type) (s : DLList α) (a : Addr) (va v : α)
    (l : List (Addr × α)) (hw : WFon s ((a, va) :: l)) :
    ∃ s1, s.peekFrontMut = .ok (some a) s1 ∧
      ∃ s4, ((s1.writeView a v).dropViewMut a).peekFront = .ok (some a) s4 ∧
        s4.readView a = some v := by
  obtain ⟨hcur, c₀, hc₀, _, _, _, _⟩ := hw.chain_ok
  have hflag : c₀.borrow = .free := hw.flags (a, va) (by simp) c₀ hc₀
  have hc' : s.read a = some c₀ := hc₀
  obtain ⟨s1, h1, hhd, _, _, hra, _⟩ := peekFrontMut_round hcur hc' hflag v
  refine ⟨s1, h1, ?_⟩
  have hh3 : ((s1.writeView a v).dropViewMut a).head = some a := by
    rw [hhd, hcur]
  refine ⟨((s1.writeView a v).dropViewMut a).write a
      { node := { c₀.node with elem := v }, strong := c₀.strong, borrow := .reading 1 },
    ?_, ?_⟩
  · simp only [DLList.peekFront, hh3, hra]
  · unfold DLList.readView
    rw [DLList.read_write_self]
    rfl

/-- Witness for C8: write 42 through an exclusive view on the one-node
list holding 7, release, then read 42 back through a shared view. -/
theorem claim8_witness :
    ∃ s1, exampleOne.peekFrontMut = .ok (some 0) s1 ∧
      ∃ s4, ((s1.writeView 0 42).dropViewMut 0).peekFront = .ok (some 0) s4 ∧
        s4.readView 0 = some 42 :=
  claim8_mut_write_visible Nat exampleOne 0 7 42 [] exampleOne_WFon

/-- Claim C9: destruction is the loop `while self.pop_front().is_some()`;
on a well-formed list of `n` nodes it terminates after exactly `n`
successful pops plus one final pop returning `None` (fuel `n + 1`
suffices, and any larger fuel gives the same result), freeing each node's
cell individually and clearing both anchors. -/
theorem claim9_iterative_destruction (α : Type) (s : DLList α) (l : List (Addr × α))
    (hw : WFon s l) :
    ∃ s', DLList.dropLoop (l.length + 1) s = some (.ok l.length s') ∧
      s'.head = none ∧ s'.tail = none ∧ (∀ p ∈ l, s'.read p.1 = none) ∧
      ∀ fuel, l.length + 1 ≤ fuel → DLList.dropLoop fuel s = some (.ok l.length s') := by
  obtain ⟨s', h1, h2, h3, h4, _⟩ := dropLoop_refine hw
  exact ⟨s', h1, h2, h3, h4, fun fuel hf => dropLoop_fuel_mono h1 hf⟩

/-- Witness for C9 at the concrete one-node list. -/
theorem claim9_witness :
    ∃ s', DLList.dropLoop 2 exampleOne = some (.ok 1 s') ∧
      s'.head = none ∧ s'.tail = none ∧
      (∀ p ∈ ([(0, 7)] : List (Addr × Nat)), s'.read p.1 = none) ∧
      ∀ fuel, 2 ≤ fuel → DLList.dropLoop fuel exampleOne = some (.ok 1 s') :=
  claim9_iterative_destruction Nat exampleOne [(0, 7)] exampleOne_WFon

/-- Claim C10: each of the four peek operations leaves the list's
structure entirely unchanged: anchors, allocator state, and every cell's
node payload and strong count are identical before and after the call
(whether it returns a view or panics); for the mut variants, after the
acquire–overwrite–release round everything is identical except the single
boundary element overwritten through the view. -/
theorem claim10_peek_frame (α : Type) (s : DLList α) :
    ((∀ v s', s.peekFront = .ok v s' → s'.head = s.head ∧ s'.tail = s.tail ∧
        s'.heap.fresh = s.heap.fresh ∧
        ∀ x, shapeAt s'.heap.cells x = shapeAt s.heap.cells x) ∧
     (∀ u, s.peekFront = .fatal u → u = s)) ∧
    ((∀ v s', s.peekBack = .ok v s' → s'.head = s.head ∧ s'.tail = s.tail ∧
        s'.heap.fresh = s.heap.fresh ∧
        ∀ x, shapeAt s'.heap.cells x = shapeAt s.heap.cells x) ∧
     (∀ u, s.peekBack = .fatal u → u = s)) ∧
    ((∀ v s', s.peekFrontMut = .ok v s' → s'.head = s.head ∧ s'.tail = s.tail ∧
        s'.heap.fresh = s.heap.fresh ∧
        ∀ x, shapeAt s'.heap.cells x = shapeAt s.heap.cells x) ∧
     (∀ u, s.peekFrontMut = .fatal u → u = s)) ∧
    ((∀ v s', s.peekBackMut = .ok v s' → s'.head = s.head ∧ s'.tail = s.tail ∧
        s'.heap.fresh = s.heap.fresh ∧
        ∀ x, shapeAt s'.heap.cells x = shapeAt s.heap.cells x) ∧
     (∀ u, s.peekBackMut = .fatal u → u = s)) ∧
    (∀ (a : Addr) (c : Cell α) (v : α), s.head = some a → s.read a = some c →
      c.borrow = .free →
      ∃ s1, s.peekFrontMut = .ok (some a) s1 ∧
        ((s1.writeView a v).dropViewMut a).head = s.head ∧
        ((s1.writeView a v).dropViewMut a).tail = s.tail ∧
        ((s1.writeView a v).dropViewMut a).heap.fresh = s.heap.fresh ∧
        ((s1.writeView a v).dropViewMut a).read a =
          some { node := { c.node with elem := v }, strong := c.strong, borrow := .free } ∧
        ∀ x, x ≠ a → ((s1.writeView a v).dropViewMut a).read x = s.read x) ∧
    (∀ (a : Addr) (c : Cell α) (v : α), s.tail = some a → s.read a = some c →
      c.borrow = .free →
      ∃ s1, s.peekBackMut = .ok (some a) s1 ∧
        ((s1.writeView a v).dropViewMut a).head = s.head ∧
        ((s1.writeView a v).dropViewMut a).tail = s.tail ∧
        ((s1.writeView a v).dropViewMut a).heap.fresh = s.heap.fresh ∧
        ((s1.writeView a v).dropViewMut a).read a =
          some { node := { c.node with elem := v }, strong := c.strong, borrow := .free } ∧
        ∀ x, x ≠ a → ((s1.writeView a v).dropViewMut a).read x = s.read x) :=
  ⟨⟨fun _ _ h => peekFront_ok_frame h, fun _ h => peekFront_fatal_eq h⟩,
   ⟨fun _ _ h => peekBack_ok_frame h, fun _ h => peekBack_fatal_eq h⟩,
   ⟨fun _ _ h => peekFrontMut_ok_frame h, fun _ h => peekFrontMut_fatal_eq h⟩,
   ⟨fun _ _ h => peekBackMut_ok_frame h, fun _ h => peekBackMut_fatal_eq h⟩,
   fun _ _ v hh hr hb => peekFrontMut_round hh hr hb v,
   fun _ _ v hh hr hb => peekBackMut_round hh hr hb v⟩

/-- Witness for C10: a shared peek on the concrete one-node list changes
nothing but the borrow flag. -/
theorem claim10_witness :
    (exampleOne.write 0 { node := { elem := 7, next := none, prev := none }, strong := 2, borrow := .reading 1 }).head = exampleOne.head ∧
    (exampleOne.write 0 { node := { elem := 7, next := none, prev := none }, strong := 2, borrow := .reading 1 }).tail = exampleOne.tail ∧
    (exampleOne.write 0 { node := { elem := 7, next := none, prev := none }, strong := 2, borrow := .reading 1 }).heap.fresh = exampleOne.heap.fresh ∧
    ∀ x, shapeAt (exampleOne.write 0 { node := { elem := 7, next := none, prev := none }, strong := 2, borrow := .reading 1 }).heap.cells x =
      shapeAt exampleOne.heap.cells x :=
  (claim10_peek_frame Nat exampleOne).1.1 (some 0)
    (exampleOne.write 0 { node := { elem := 7, next := none, prev := none }, strong := 2, borrow := .reading 1 }) rfl
